import Mathlib

/-!
A shallow embedding of the DPLL SAT solver in `src/dpll.py` together with a
verification of its specification.

Conventions of the embedding:
* a literal is an `Int` (the Python code uses nonzero signed integers);
* a clause is a `List Int`, a formula a `List Clause`;
* the Python sentinel `-1` standing for "Conflict" becomes the explicit
  variant `FormulaR.conflict`;
* Python runtime faults (`TypeError` when iterating over the `-1` sentinel,
  `IndexError` when indexing an empty clause) are modelled by `Option.none`
  respectively `DpllOut.fault`;
* the recursive search `_dpll` and the loop in `up` are written with an
  explicit fuel parameter so that every definition is structurally
  recursive and kernel-reducible; the canonical fuel `occ f + 1` (one more
  than the number of literal occurrences) is proved sufficient below.
-/

/-- A clause: a list of literals (nonzero signed integers). -/
abbrev Clause := List Int

/-- A formula in CNF: a list of clauses. -/
abbrev Formula := List Clause

/-- The result of a simplification step: a formula, or the Conflict
sentinel (the Python code returns the integer `-1`). -/
inductive FormulaR where
  | ok (f : Formula)
  | conflict
  deriving DecidableEq, Repr

/-- All literal occurrences of a formula, in scan order (clause by clause). -/
def occs (f : Formula) : List Int := f.flatten

/-- Total number of literal occurrences: the sum of the clause lengths. -/
def occ (f : Formula) : Nat := (f.map List.length).sum

/-- `_make_literal_true(formula, literal)` from `src/dpll.py`: drop every
clause containing `l`; from each remaining clause remove (the first
occurrence of) `-l`; return Conflict as soon as a clause becomes empty. -/
def _make_literal_true (f : Formula) (l : Int) : FormulaR :=
  match f with
  | [] => .ok []
  | c :: cs =>
    if l ∈ c then _make_literal_true cs l
    else if -l ∈ c then
      let nc := c.erase (-l)
      if nc = [] then .conflict
      else
        match _make_literal_true cs l with
        | .ok rest => .ok (nc :: rest)
        | .conflict => .conflict
    else
      match _make_literal_true cs l with
      | .ok rest => .ok (c :: rest)
      | .conflict => .conflict

/-- `make_literals_true(formula, literals)` from `src/dpll.py`, for a list
argument: fold `_make_literal_true` over the literals.  The Python loop has
no Conflict check: if an intermediate step returns the `-1` sentinel and
literals remain, the next iteration raises `TypeError` (modelled by `none`);
a Conflict produced by the last literal is returned as is. -/
def make_literals_true (f : Formula) (ls : List Int) : Option FormulaR :=
  match ls with
  | [] => some (.ok f)
  | l :: rest =>
    match _make_literal_true f l with
    | .ok f' => make_literals_true f' rest
    | .conflict => if rest = [] then some .conflict else none

/-- Insert a literal into the key list unless already present (models the
insertion-order keys of the Python `defaultdict` in `count_literals`). -/
def addKey (acc : List Int) (l : Int) : List Int :=
  if l ∈ acc then acc else acc ++ [l]

/-- The keys of `count_literals(formula)`: the distinct literals of the
formula in first-occurrence order. -/
def literalKeys (f : Formula) : List Int := (occs f).foldl addKey []

/-- The pure literals collected by `ple`: keys whose negation is not a key. -/
def pureLiterals (f : Formula) : List Int :=
  (literalKeys f).filter (fun l => decide ((-l) ∉ literalKeys f))

/-- `ple(formula)` from `src/dpll.py`: assign all pure literals true and
return the simplified formula together with the pure literals. -/
def ple (f : Formula) : Option (FormulaR × List Int) :=
  (make_literals_true f (pureLiterals f)).map (fun r => (r, pureLiterals f))

/-- `get_unit_clause(formula)` from `src/dpll.py`: the first clause of
length exactly 1, if any. -/
def get_unit_clause (f : Formula) : Option Clause :=
  f.find? (fun c => c.length == 1)

/-- The sole literal of the first unit clause, if any. -/
def getUnitLit (f : Formula) : Option Int :=
  (get_unit_clause f).bind List.head?

/-- Fuelled version of `up(formula)` from `src/dpll.py`: propagate unit
clauses until none remains, the formula becomes empty, or a Conflict
occurs (in which case the accumulated assignments are discarded and the
empty list is returned, exactly as `return -1, []` does). -/
def upF : Nat → Formula → Option (FormulaR × List Int)
  | 0, _ => none
  | fuel + 1, f =>
    match getUnitLit f with
    | none => some (.ok f, [])
    | some l =>
      match _make_literal_true f l with
      | .conflict => some (.conflict, [])
      | .ok f' =>
        if f' = [] then some (.ok f', [l])
        else
          match upF fuel f' with
          | none => none
          | some (.conflict, _) => some (.conflict, [])
          | some (.ok g, vs) => some (.ok g, l :: vs)

/-- `up(formula)`: the fuelled loop run with the canonical fuel
`occ f + 1`, which is proved sufficient below. -/
def up (f : Formula) : FormulaR × List Int :=
  (upF (occ f + 1) f).getD (.conflict, [])

/-- `select_next_literal(formula)` from `src/dpll.py`: the first literal of
the first clause.  `none` for an empty first clause models the Python
`IndexError` on `clause[0]` (the empty-formula case is guarded by the
caller). -/
def select_next_literal (f : Formula) : Option Int :=
  match f with
  | [] => none
  | c :: _ => c.head?

/-- Outcome of `_dpll`: a valuation (the empty list doubling as the failure
result, as in the Python code), or a runtime fault. -/
inductive DpllOut where
  | fault
  | val (s : List Int)
  deriving DecidableEq, Repr

/-- Fuelled version of `_dpll(formula, valuation)` from `src/dpll.py`:
run `ple` then `up`, return `[]` on Conflict, the valuation on the empty
formula, and otherwise branch on the first literal of the first clause,
trying the positive sign first.  `some .fault` models the Python runtime
errors: `ple` on the Conflict sentinel, `clause[0]` on an empty clause,
and the recursive call `_dpll(-1, ...)` when the branch assignment
conflicts.  `none` means the fuel ran out. -/
def _dpllF : Nat → Formula → List Int → Option DpllOut
  | 0, _, _ => none
  | fuel + 1, f, v =>
    match ple f with
    | none => some .fault
    | some (.conflict, _) => some .fault
    | some (.ok f1, pv) =>
      match up f1 with
      | (.conflict, _) => some (.val [])
      | (.ok f2, uv) =>
        if f2 = [] then some (.val (v ++ pv ++ uv))
        else
          match select_next_literal f2 with
          | none => some .fault
          | some lit =>
            match _make_literal_true f2 lit with
            | .conflict => some .fault
            | .ok fa =>
              match _dpllF fuel fa ((v ++ pv ++ uv) ++ [lit]) with
              | none => none
              | some .fault => some .fault
              | some (.val s1) =>
                if s1 ≠ [] then some (.val s1)
                else
                  match _make_literal_true f2 (-lit) with
                  | .conflict => some .fault
                  | .ok fb =>
                    match _dpllF fuel fb ((v ++ pv ++ uv) ++ [-lit]) with
                    | none => none
                    | some .fault => some .fault
                    | some (.val s2) =>
                      if s2 ≠ [] then some (.val s2) else some (.val [])

/-- `_dpll(formula, valuation)`: the fuelled search run with the canonical
fuel `occ f + 1`, which is proved sufficient below. -/
def _dpll (f : Formula) (v : List Int) : DpllOut :=
  (_dpllF (occ f + 1) f v).getD .fault

/-- Stable insertion of a literal into a list sorted by ascending variable
magnitude (equal keys keep their original relative order, as Python's
stable `sort(key=lambda x: abs(x))` does). -/
def insAbs (x : Int) : List Int → List Int
  | [] => [x]
  | y :: ys => if y.natAbs < x.natAbs then y :: insAbs x ys else x :: y :: ys

/-- Stable sort by ascending variable magnitude, modelling
`solution.sort(key=lambda x: abs(x))`. -/
def sortAbs : List Int → List Int
  | [] => []
  | x :: xs => insAbs x (sortAbs xs)

/-- The default-true literals added by the driver: one positive literal for
every variable in `1..n` with neither polarity in the valuation, modelling
`[i for i in range(1, n_props+1) if i not in solution and -i not in solution]`. -/
def missingVars (s : List Int) (n : Nat) : List Int :=
  ((List.range' 1 n).filter
    (fun i => decide (((i : Nat) : Int) ∉ s) && decide ((-((i : Nat) : Int)) ∉ s))).map
    (fun i => ((i : Nat) : Int))

/-- `dpll` from `src/dpll.py` with the DIMACS parser stripped away: the
solver driver on a parsed `(formula, n_props)` pair.  `none` models a
Python runtime fault, `some none` the return value `None` (reported
UNSAT), `some (some sol)` a returned assignment. -/
def dpll (f : Formula) (n : Nat) : Option (Option (List Int)) :=
  match _dpll f [] with
  | .fault => none
  | .val s =>
    if s = [] then some none
    else some (some (sortAbs (missingVars s n ++ s)))

/-- Truth of a literal under a total assignment of the variables. -/
def litSat (σ : Nat → Bool) (l : Int) : Bool :=
  if 0 < l then σ l.natAbs else !(σ l.natAbs)

/-- Truth of a clause (a disjunction) under a total assignment. -/
def clauseSat (σ : Nat → Bool) (c : Clause) : Bool := c.any (litSat σ)

/-- Truth of a formula (a conjunction of clauses) under a total assignment. -/
def satF (σ : Nat → Bool) (f : Formula) : Bool := f.all (clauseSat σ)

/-- The set of distinct variables (literal magnitudes) of a formula. -/
def varSet (f : Formula) : Finset Nat := ((occs f).map Int.natAbs).toFinset

/-- The number of distinct variables of a formula. -/
def numVars (f : Formula) : Nat := (varSet f).card

/-- The simplified formula a call of `_dpll` branches on: the result of
`ple` then `up`, when both succeed. -/
def pleUp (f : Formula) : Option Formula :=
  match ple f with
  | some (.ok f1, _) =>
    match up f1 with
    | (.ok f2, _) => some f2
    | (.conflict, _) => none
  | _ => none

/-- Number of distinct variables left at the branching point of a call. -/
def branchCard (f : Formula) : Nat :=
  match pleUp f with
  | some f2 => (varSet f2).card
  | none => 0

/-- Depth of the recursion tree actually explored by `_dpll` (fuelled):
1 for a call that does not recurse, and one more than the deepest child
for a branching call; the aborted call `_dpll(-1, ...)` after a Conflict
branch assignment counts as depth 1. -/
def depthF : Nat → Formula → List Int → Nat
  | 0, _, _ => 0
  | fuel + 1, f, v =>
    match ple f with
    | none => 1
    | some (.conflict, _) => 1
    | some (.ok f1, pv) =>
      match up f1 with
      | (.conflict, _) => 1
      | (.ok f2, uv) =>
        if f2 = [] then 1
        else
          match select_next_literal f2 with
          | none => 1
          | some lit =>
            match _make_literal_true f2 lit with
            | .conflict => 2
            | .ok fa =>
              match _dpllF fuel fa ((v ++ pv ++ uv) ++ [lit]) with
              | none => 1 + depthF fuel fa ((v ++ pv ++ uv) ++ [lit])
              | some .fault => 1 + depthF fuel fa ((v ++ pv ++ uv) ++ [lit])
              | some (.val s1) =>
                if s1 ≠ [] then 1 + depthF fuel fa ((v ++ pv ++ uv) ++ [lit])
                else
                  match _make_literal_true f2 (-lit) with
                  | .conflict => max (1 + depthF fuel fa ((v ++ pv ++ uv) ++ [lit])) 2
                  | .ok fb =>
                    max (1 + depthF fuel fa ((v ++ pv ++ uv) ++ [lit]))
                        (1 + depthF fuel fb ((v ++ pv ++ uv) ++ [-lit]))

/-- Depth of the recursion tree of `_dpll f v` at the canonical fuel. -/
def dpllDepth (f : Formula) (v : List Int) : Nat := depthF (occ f + 1) f v

/-- Every clause of the formula is duplicate-free (no literal occurs twice
in one clause). -/
def cleanF (f : Formula) : Prop := ∀ c ∈ f, c.Nodup

/-- The formula contains no empty clause. -/
def noEmptyClause (f : Formula) : Prop := ∀ c ∈ f, c ≠ []

/-- `Reaches f g` holds when a call `_dpll g _` arises in the recursive
call tree of `_dpll f _`: `g` is obtained from `f` by finitely many rounds
of `ple`, `up` and a branch assignment on the selected literal. -/
inductive Reaches : Formula → Formula → Prop
  | refl (f : Formula) : Reaches f f
  | step {f g g1 g2 : Formula} {pv uv : List Int} {l s : Int} {g' : Formula} :
      Reaches f g →
      ple g = some (.ok g1, pv) →
      up g1 = (.ok g2, uv) →
      g2 ≠ [] →
      select_next_literal g2 = some l →
      (s = l ∨ s = -l) →
      _make_literal_true g2 s = .ok g' →
      Reaches f g'

/-! ### Basic facts about occurrences -/

theorem occs_cons (c : Clause) (cs : Formula) : occs (c :: cs) = c ++ occs cs := by
  simp [occs]

theorem mem_occs {x : Int} {f : Formula} : x ∈ occs f ↔ ∃ c ∈ f, x ∈ c := by
  simp [occs, List.mem_flatten]

theorem occ_cons (c : Clause) (cs : Formula) : occ (c :: cs) = c.length + occ cs := by
  simp [occ]

theorem occs_subset_of_clauses_subset {f g : Formula} (h : ∀ c ∈ f, c ∈ g) :
    ∀ x ∈ occs f, x ∈ occs g := by
  intro x hx
  rcases mem_occs.1 hx with ⟨c, hc, hxc⟩
  exact mem_occs.2 ⟨c, h c hc, hxc⟩

/-! ### Characterisation of `_make_literal_true` -/

theorem mlt_conflict_iff (f : Formula) (l : Int) :
    _make_literal_true f l = .conflict ↔
      ∃ c ∈ f, l ∉ c ∧ -l ∈ c ∧ c.erase (-l) = [] := by
  induction f with
  | nil => simp [_make_literal_true]
  | cons c cs ih =>
    by_cases hc : l ∈ c
    · simp only [_make_literal_true, if_pos hc, ih]
      constructor
      · rintro ⟨d, hd, h⟩; exact ⟨d, List.mem_cons_of_mem _ hd, h⟩
      · rintro ⟨d, hd, h1, h2, h3⟩
        rcases List.mem_cons.1 hd with rfl | hd
        · exact absurd hc h1
        · exact ⟨d, hd, h1, h2, h3⟩
    · by_cases hnc : -l ∈ c
      · by_cases he : c.erase (-l) = []
        · simp only [_make_literal_true, if_neg hc, if_pos hnc, if_pos he]
          exact ⟨fun _ => ⟨c, List.mem_cons_self _ _, hc, hnc, he⟩, fun _ => trivial⟩
        · simp only [_make_literal_true, if_neg hc, if_pos hnc, if_neg he]
          constructor
          · intro h
            rcases hrec : _make_literal_true cs l with f' | _
            · rw [hrec] at h; exact absurd h (by simp)
            · rcases ih.1 hrec with ⟨d, hd, h⟩
              exact ⟨d, List.mem_cons_of_mem _ hd, h⟩
          · rintro ⟨d, hd, h1, h2, h3⟩
            rcases List.mem_cons.1 hd with rfl | hd
            · exact absurd h3 he
            · rw [ih.2 ⟨d, hd, h1, h2, h3⟩]
      · simp only [_make_literal_true, if_neg hc, if_neg hnc]
        constructor
        · intro h
          rcases hrec : _make_literal_true cs l with f' | _
          · rw [hrec] at h; exact absurd h (by simp)
          · rcases ih.1 hrec with ⟨d, hd, hh⟩
            exact ⟨d, List.mem_cons_of_mem _ hd, hh⟩
        · rintro ⟨d, hd, h1, h2, h3⟩
          rcases List.mem_cons.1 hd with rfl | hd
          · exact absurd h2 hnc
          · rw [ih.2 ⟨d, hd, h1, h2, h3⟩]

theorem mlt_ok_eq {f : Formula} {l : Int} {f' : Formula}
    (h : _make_literal_true f l = .ok f') :
    f' = (f.filter (fun c => decide (l ∉ c))).map (fun c => c.erase (-l)) := by
  induction f generalizing f' with
  | nil => simp [_make_literal_true] at h; subst h; simp
  | cons c cs ih =>
    by_cases hc : l ∈ c
    · rw [_make_literal_true, if_pos hc] at h
      simpa [List.filter_cons, hc] using ih h
    · by_cases hnc : -l ∈ c
      · by_cases he : c.erase (-l) = []
        · rw [_make_literal_true, if_neg hc, if_pos hnc] at h
          simp only [if_pos he] at h
          exact absurd h (by simp)
        · rw [_make_literal_true, if_neg hc, if_pos hnc] at h
          simp only [if_neg he] at h
          rcases hrec : _make_literal_true cs l with g | _
          · rw [hrec] at h
            simp only [FormulaR.ok.injEq] at h
            rw [← h, List.filter_cons, if_pos (by simpa using hc)]
            simp [ih hrec]
          · rw [hrec] at h; exact absurd h (by simp)
      · rw [_make_literal_true, if_neg hc, if_neg hnc] at h
        rcases hrec : _make_literal_true cs l with g | _
        · rw [hrec] at h
          simp only [FormulaR.ok.injEq] at h
          rw [← h, List.filter_cons, if_pos (by simpa using hc)]
          simp [ih hrec, List.erase_of_not_mem hnc]
        · rw [hrec] at h; exact absurd h (by simp)

theorem mlt_clauses {f : Formula} {l : Int} {f' : Formula}
    (h : _make_literal_true f l = .ok f') {c' : Clause} (hc' : c' ∈ f') :
    ∃ c ∈ f, l ∉ c ∧ c' = c.erase (-l) := by
  rw [mlt_ok_eq h] at hc'
  rcases List.mem_map.1 hc' with ⟨c, hc, rfl⟩
  rcases List.mem_filter.1 hc with ⟨hcf, hlc⟩
  exact ⟨c, hcf, by simpa using hlc, rfl⟩

theorem mlt_occs_subset {f : Formula} {l : Int} {f' : Formula}
    (h : _make_literal_true f l = .ok f') : ∀ x ∈ occs f', x ∈ occs f := by
  intro x hx
  rcases mem_occs.1 hx with ⟨c', hc', hxc'⟩
  rcases mlt_clauses h hc' with ⟨c, hc, _, rfl⟩
  exact mem_occs.2 ⟨c, hc, List.erase_subset _ _ hxc'⟩

theorem mlt_self_not_mem {f : Formula} {l : Int} {f' : Formula}
    (h : _make_literal_true f l = .ok f') : l ∉ occs f' := by
  intro hl
  rcases mem_occs.1 hl with ⟨c', hc', hxc'⟩
  rcases mlt_clauses h hc' with ⟨c, _, hlc, rfl⟩
  exact hlc (List.erase_subset _ _ hxc')

theorem mlt_neg_not_mem {f : Formula} {l : Int} {f' : Formula}
    (hcl : cleanF f) (h : _make_literal_true f l = .ok f') : -l ∉ occs f' := by
  intro hl
  rcases mem_occs.1 hl with ⟨c', hc', hxc'⟩
  rcases mlt_clauses h hc' with ⟨c, hc, _, rfl⟩
  exact (hcl c hc).not_mem_erase hxc'

theorem mlt_absent {f : Formula} {l x : Int} {f' : Formula}
    (h : _make_literal_true f l = .ok f') (hx : x ∉ occs f) : x ∉ occs f' :=
  fun hmem => hx (mlt_occs_subset h x hmem)

theorem mlt_clean {f : Formula} {l : Int} {f' : Formula}
    (hcl : cleanF f) (h : _make_literal_true f l = .ok f') : cleanF f' := by
  intro c' hc'
  rcases mlt_clauses h hc' with ⟨c, hc, _, rfl⟩
  exact (hcl c hc).erase _

theorem mlt_noEmpty {f : Formula} {l : Int} {f' : Formula}
    (hne : noEmptyClause f) (h : _make_literal_true f l = .ok f') :
    noEmptyClause f' := by
  intro c' hc'
  rcases mlt_clauses h hc' with ⟨c, hc, hlc, rfl⟩
  intro he
  by_cases hnl : -l ∈ c
  · have : _make_literal_true f l = .conflict :=
      (mlt_conflict_iff f l).2 ⟨c, hc, hlc, hnl, he⟩
    rw [h] at this; exact absurd this (by simp)
  · rw [List.erase_of_not_mem hnl] at he
    exact hne c hc he

theorem mlt_occ_le {f : Formula} {l : Int} {f' : Formula}
    (h : _make_literal_true f l = .ok f') : occ f' ≤ occ f := by
  induction f generalizing f' with
  | nil => simp [_make_literal_true] at h; subst h; simp
  | cons c cs ih =>
    by_cases hc : l ∈ c
    · rw [_make_literal_true, if_pos hc] at h
      exact le_trans (ih h) (by rw [occ_cons]; omega)
    · by_cases hnc : -l ∈ c
      · rw [_make_literal_true, if_neg hc, if_pos hnc] at h
        by_cases he : c.erase (-l) = []
        · simp only [if_pos he] at h; exact absurd h (by simp)
        · simp only [if_neg he] at h
          rcases hrec : _make_literal_true cs l with g | _
          · rw [hrec] at h
            simp only [FormulaR.ok.injEq] at h
            rw [← h, occ_cons, occ_cons]
            have h1 : (c.erase (-l)).length + 1 = c.length :=
              List.length_erase_add_one hnc
            have h2 := ih hrec
            omega
          · rw [hrec] at h; exact absurd h (by simp)
      · rw [_make_literal_true, if_neg hc, if_neg hnc] at h
        rcases hrec : _make_literal_true cs l with g | _
        · rw [hrec] at h
          simp only [FormulaR.ok.injEq] at h
          rw [← h, occ_cons, occ_cons]
          have h2 := ih hrec
          omega
        · rw [hrec] at h; exact absurd h (by simp)

theorem mlt_occ_lt {f : Formula} {l : Int} {f' : Formula}
    (h : _make_literal_true f l = .ok f') {c : Clause} (hcf : c ∈ f)
    (hlc : l ∈ c ∨ -l ∈ c) : occ f' < occ f := by
  induction f generalizing f' with
  | nil => exact absurd hcf (by simp)
  | cons c0 cs ih =>
    rcases List.mem_cons.1 hcf with rfl | hcs
    · by_cases hc : l ∈ c
      · rw [_make_literal_true, if_pos hc] at h
        have h1 := mlt_occ_le h
        have h2 : 0 < c.length := List.length_pos.2 (List.ne_nil_of_mem hc)
        rw [occ_cons]; omega
      · have hnc : -l ∈ c := by tauto
        rw [_make_literal_true, if_neg hc, if_pos hnc] at h
        by_cases he : c.erase (-l) = []
        · simp only [if_pos he] at h; exact absurd h (by simp)
        · simp only [if_neg he] at h
          rcases hrec : _make_literal_true cs l with g | _
          · rw [hrec] at h
            simp only [FormulaR.ok.injEq] at h
            rw [← h, occ_cons, occ_cons]
            have h1 : (c.erase (-l)).length + 1 = c.length :=
              List.length_erase_add_one hnc
            have h2 := mlt_occ_le hrec
            omega
          · rw [hrec] at h; exact absurd h (by simp)
    · by_cases hc : l ∈ c0
      · rw [_make_literal_true, if_pos hc] at h
        have := ih h hcs
        rw [occ_cons]; omega
      · by_cases hnc : -l ∈ c0
        · rw [_make_literal_true, if_neg hc, if_pos hnc] at h
          by_cases he : c0.erase (-l) = []
          · simp only [if_pos he] at h; exact absurd h (by simp)
          · simp only [if_neg he] at h
            rcases hrec : _make_literal_true cs l with g | _
            · rw [hrec] at h
              simp only [FormulaR.ok.injEq] at h
              have h1 : (c0.erase (-l)).length + 1 = c0.length :=
                List.length_erase_add_one hnc
              have h2 := ih hrec hcs
              rw [← h, occ_cons, occ_cons]
              omega
            · rw [hrec] at h; exact absurd h (by simp)
        · rw [_make_literal_true, if_neg hc, if_neg hnc] at h
          rcases hrec : _make_literal_true cs l with g | _
          · rw [hrec] at h
            simp only [FormulaR.ok.injEq] at h
            have h2 := ih hrec hcs
            rw [← h, occ_cons, occ_cons]
            omega
          · rw [hrec] at h; exact absurd h (by simp)

/-! ### Keys and pure literals -/

theorem mem_foldl_addKey (xs : List Int) :
    ∀ (acc : List Int) (x : Int), x ∈ xs.foldl addKey acc ↔ x ∈ acc ∨ x ∈ xs := by
  induction xs with
  | nil => intro acc x; simp
  | cons y ys ih =>
    intro acc x
    rw [List.foldl_cons, ih]
    unfold addKey
    by_cases hy : y ∈ acc
    · rw [if_pos hy]
      constructor
      · rintro (h | h)
        · exact Or.inl h
        · exact Or.inr (List.mem_cons_of_mem _ h)
      · rintro (h | h)
        · exact Or.inl h
        · rcases List.mem_cons.1 h with rfl | h
          · exact Or.inl hy
          · exact Or.inr h
    · rw [if_neg hy]
      simp only [List.mem_append, List.mem_singleton, List.mem_cons]
      tauto

theorem mem_literalKeys {f : Formula} {x : Int} :
    x ∈ literalKeys f ↔ x ∈ occs f := by
  rw [literalKeys, mem_foldl_addKey]
  simp

theorem nodup_foldl_addKey (xs : List Int) :
    ∀ acc : List Int, acc.Nodup → (xs.foldl addKey acc).Nodup := by
  induction xs with
  | nil => intro acc h; simpa using h
  | cons y ys ih =>
    intro acc h
    rw [List.foldl_cons]
    apply ih
    unfold addKey
    by_cases hy : y ∈ acc
    · rwa [if_pos hy]
    · rw [if_neg hy]
      simpa [List.nodup_append] using ⟨h, hy⟩

theorem nodup_literalKeys (f : Formula) : (literalKeys f).Nodup :=
  nodup_foldl_addKey _ _ List.nodup_nil

theorem mem_pureLiterals {f : Formula} {x : Int} :
    x ∈ pureLiterals f ↔ x ∈ occs f ∧ -x ∉ occs f := by
  rw [pureLiterals, List.mem_filter]
  simp [mem_literalKeys]

theorem pureLiterals_vars_nodup (f : Formula) :
    ((pureLiterals f).map Int.natAbs).Nodup := by
  apply List.Nodup.map_on _ ((nodup_literalKeys f).filter _)
  intro x hx y hy hxy
  rcases mem_pureLiterals.1 hx with ⟨hx1, hx2⟩
  rcases mem_pureLiterals.1 hy with ⟨hy1, hy2⟩
  rcases Int.natAbs_eq_natAbs_iff.1 hxy with rfl | rfl
  · rfl
  · rw [neg_neg] at hx2
    exact absurd hy1 hx2

/-! ### `make_literals_true` on pure literal lists -/

theorem mlt_pure_eq {f : Formula} {l : Int} (hp : -l ∉ occs f) :
    _make_literal_true f l = .ok (f.filter (fun c => decide (l ∉ c))) := by
  have h2 : (f.filter (fun c => decide (l ∉ c))).map (fun c => c.erase (-l))
      = f.filter (fun c => decide (l ∉ c)) := by
    conv_rhs => rw [← List.map_id (f.filter (fun c => decide (l ∉ c)))]
    apply List.map_congr_left
    intro c hc
    show c.erase (-l) = c
    apply List.erase_of_not_mem
    intro hmem
    exact hp (mem_occs.2 ⟨c, (List.mem_filter.1 hc).1, hmem⟩)
  rcases h : _make_literal_true f l with f' | _
  · rw [mlt_ok_eq h, h2]
  · rcases (mlt_conflict_iff f l).1 h with ⟨c, hc, _, hnl, _⟩
    exact absurd (mem_occs.2 ⟨c, hc, hnl⟩) hp

theorem mltL_pure : ∀ (ls : List Int) (f : Formula),
    (∀ l ∈ ls, -l ∉ occs f) →
    ∃ f', make_literals_true f ls = some (.ok f') ∧
      (∀ c ∈ f', c ∈ f) ∧
      (∀ l ∈ ls, l ∉ occs f' ∧ -l ∉ occs f') := by
  intro ls
  induction ls with
  | nil => intro f _; exact ⟨f, rfl, fun c hc => hc, by simp⟩
  | cons l rest ih =>
    intro f hp
    have hl : -l ∉ occs f := hp l (List.mem_cons_self _ _)
    have hstep := mlt_pure_eq hl
    set g := f.filter (fun c => decide (l ∉ c)) with hg
    have hsubg : ∀ c ∈ g, c ∈ f := fun c hc => (List.mem_filter.1 hc).1
    have hoccg : ∀ x ∈ occs g, x ∈ occs f := occs_subset_of_clauses_subset hsubg
    have hrest : ∀ m ∈ rest, -m ∉ occs g :=
      fun m hm hmem => hp m (List.mem_cons_of_mem _ hm) (hoccg _ hmem)
    rcases ih g hrest with ⟨f', hf', hsub, hprops⟩
    refine ⟨f', ?_, fun c hc => hsubg c (hsub c hc), ?_⟩
    · simp only [make_literals_true, hstep]
      exact hf'
    · intro m hm
      rcases List.mem_cons.1 hm with rfl | hm
      · have hocc' := occs_subset_of_clauses_subset hsub
        constructor
        · intro hmem
          rcases mem_occs.1 (hocc' _ hmem) with ⟨c, hc, hmc⟩
          have := (List.mem_filter.1 hc).2
          simp at this
          exact this hmc
        · intro hmem
          exact hl (hoccg _ (hocc' _ hmem))
      · exact hprops m hm

theorem ple_ok (f : Formula) :
    ∃ f1, ple f = some (.ok f1, pureLiterals f) ∧
      (∀ c ∈ f1, c ∈ f) ∧
      (∀ l ∈ pureLiterals f, l ∉ occs f1 ∧ -l ∉ occs f1) := by
  have hp : ∀ l ∈ pureLiterals f, -l ∉ occs f :=
    fun l hl => (mem_pureLiterals.1 hl).2
  rcases mltL_pure _ f hp with ⟨f1, h1, h2, h3⟩
  exact ⟨f1, by rw [ple, h1]; rfl, h2, h3⟩

/-! ### Unit propagation -/

theorem getUnitLit_mem {f : Formula} {l : Int} (h : getUnitLit f = some l) :
    [l] ∈ f := by
  rw [getUnitLit] at h
  rcases ho : get_unit_clause f with _ | c
  · rw [ho] at h; exact absurd h (by simp)
  · rw [ho] at h
    have hc : c ∈ f := List.mem_of_find?_eq_some ho
    have hlen : c.length = 1 := by
      have := List.find?_some ho
      simpa using this
    rcases c with _ | ⟨x, ⟨_ | _⟩⟩
    · simp at hlen
    · simp at h; rw [← h]; exact hc
    · simp at hlen

theorem upF_ok {fuel : Nat} : ∀ {f g : Formula} {vs : List Int},
    upF fuel f = some (.ok g, vs) →
    (∀ x ∈ occs g, x ∈ occs f) ∧ occ g ≤ occ f ∧
      (g = [] ∨ getUnitLit g = none) ∧
      (cleanF f → cleanF g) ∧
      (noEmptyClause f → noEmptyClause g) ∧
      (∀ l ∈ vs, l ∈ occs f) := by
  induction fuel with
  | zero => intro f g vs h; exact absurd h (by simp [upF])
  | succ n ih =>
    intro f g vs h
    rw [upF] at h
    rcases hu : getUnitLit f with _ | l
    · simp only [hu, Option.some.injEq, Prod.mk.injEq] at h
      rcases h with ⟨h1, h2⟩
      cases h1
      exact ⟨fun x hx => hx, le_refl _, Or.inr hu, fun hc => hc, fun hc => hc,
        by simp [← h2]⟩
    · simp only [hu] at h
      have hlu : [l] ∈ f := getUnitLit_mem hu
      rcases hm : _make_literal_true f l with f' | _
      · simp only [hm] at h
        by_cases hf' : f' = []
        · simp only [if_pos hf', Option.some.injEq, Prod.mk.injEq] at h
          rcases h with ⟨h1, h2⟩
          cases h1
          subst hf'
          refine ⟨by simp [occs], by simp [occ], Or.inl rfl,
            fun _ => by intro c hc; simp at hc,
            fun _ => by intro c hc; simp at hc, ?_⟩
          intro x hx
          rw [← h2] at hx
          simp only [List.mem_singleton] at hx
          subst hx
          exact mem_occs.2 ⟨[x], hlu, by simp⟩
        · simp only [if_neg hf'] at h
          rcases hrec : upF n f' with _ | ⟨fr, vs'⟩
          · simp [hrec] at h
          rcases fr with g' | _
          · simp only [hrec, Option.some.injEq, Prod.mk.injEq] at h
            rcases h with ⟨h1, h2⟩
            cases h1
            rcases ih hrec with ⟨hsub, hle, hend, hclean, hne, hvs⟩
            have hsub2 := mlt_occs_subset hm
            refine ⟨fun x hx => hsub2 x (hsub x hx),
              le_trans hle (mlt_occ_le hm), hend,
              fun hc => hclean (mlt_clean hc hm),
              fun hc => hne (mlt_noEmpty hc hm), ?_⟩
            intro x hx
            rw [← h2] at hx
            rcases List.mem_cons.1 hx with rfl | hx
            · exact mem_occs.2 ⟨[x], hlu, by simp⟩
            · exact hsub2 x (hvs x hx)
          · simp [hrec] at h
      · simp [hm] at h

theorem upF_vals_clean {fuel : Nat} : ∀ {f g : Formula} {vs : List Int},
    cleanF f → upF fuel f = some (.ok g, vs) →
    (vs.map Int.natAbs).Nodup ∧ ∀ l ∈ vs, l ∉ occs g ∧ -l ∉ occs g := by
  induction fuel with
  | zero => intro f g vs _ h; exact absurd h (by simp [upF])
  | succ n ih =>
    intro f g vs hcf h
    rw [upF] at h
    rcases hu : getUnitLit f with _ | l
    · simp only [hu, Option.some.injEq, Prod.mk.injEq] at h
      rcases h with ⟨_, h2⟩
      simp [← h2]
    · simp only [hu] at h
      rcases hm : _make_literal_true f l with f' | _
      · simp only [hm] at h
        have hcf' : cleanF f' := mlt_clean hcf hm
        have hself : l ∉ occs f' := mlt_self_not_mem hm
        have hneg : -l ∉ occs f' := mlt_neg_not_mem hcf hm
        by_cases hf' : f' = []
        · simp only [if_pos hf', Option.some.injEq, Prod.mk.injEq] at h
          rcases h with ⟨h1, h2⟩
          cases h1
          subst hf'
          constructor
          · rw [← h2]; simp
          · intro x hx
            rw [← h2] at hx
            simp only [List.mem_singleton] at hx
            subst hx
            simp [occs]
        · simp only [if_neg hf'] at h
          rcases hrec : upF n f' with _ | ⟨fr, vs'⟩
          · simp [hrec] at h
          rcases fr with g' | _
          swap
          · simp [hrec] at h
          · simp only [hrec, Option.some.injEq, Prod.mk.injEq] at h
            rcases h with ⟨h1, h2⟩
            cases h1
            rcases ih hcf' hrec with ⟨hnd, hprops⟩
            rcases upF_ok hrec with ⟨hsubg, _, _, _, _, hvs'⟩
            constructor
            · rw [← h2]
              simp only [List.map_cons, List.nodup_cons]
              refine ⟨?_, hnd⟩
              intro hmem
              rcases List.mem_map.1 hmem with ⟨m, hm', hmm⟩
              have hmf' : m ∈ occs f' := hvs' m hm'
              rcases Int.natAbs_eq_natAbs_iff.1 hmm with rfl | rfl
              · exact hself hmf'
              · exact hneg (by simpa using hmf')
            · intro x hx
              rw [← h2] at hx
              rcases List.mem_cons.1 hx with rfl | hx
              · exact ⟨fun hmem => hself (hsubg x hmem),
                  fun hmem => hneg (hsubg _ hmem)⟩
              · exact hprops x hx
      · simp [hm] at h

theorem upF_conflict_nil {fuel : Nat} : ∀ {f : Formula} {r : FormulaR × List Int},
    upF fuel f = some r → r.1 = .conflict → r.2 = [] := by
  induction fuel with
  | zero => intro f r h; exact absurd h (by simp [upF])
  | succ n ih =>
    intro f r h hr
    rw [upF] at h
    rcases hu : getUnitLit f with _ | l
    · simp only [hu, Option.some.injEq] at h
      rw [← h] at hr
      exact absurd hr (by simp)
    · simp only [hu] at h
      rcases hm : _make_literal_true f l with f' | _
      · simp only [hm] at h
        by_cases hf' : f' = []
        · simp only [if_pos hf', Option.some.injEq] at h
          rw [← h] at hr
          exact absurd hr (by simp)
        · simp only [if_neg hf'] at h
          rcases hrec : upF n f' with _ | ⟨fr, vs'⟩
          · simp [hrec] at h
          rcases fr with g' | _
          · simp only [hrec, Option.some.injEq] at h
            rw [← h] at hr
            exact absurd hr (by simp)
          · simp only [hrec, Option.some.injEq] at h
            rw [← h]
      · simp only [hm, Option.some.injEq] at h
        rw [← h]

theorem upF_isSome {fuel : Nat} : ∀ {f : Formula}, occ f < fuel →
    (upF fuel f).isSome := by
  induction fuel with
  | zero => intro f h; omega
  | succ n ih =>
    intro f hlt
    rw [upF]
    rcases hu : getUnitLit f with _ | l
    · simp [hu]
    · rcases hm : _make_literal_true f l with f' | _
      · by_cases hf' : f' = []
        · simp [hu, hm, hf']
        · have hdec : occ f' < occ f :=
            mlt_occ_lt hm (getUnitLit_mem hu) (Or.inl (by simp))
          have hs := ih (f := f') (by omega)
          rcases hrec : upF n f' with _ | ⟨fr, vs'⟩
          · rw [hrec] at hs; exact absurd hs (by simp)
          rcases fr with g' | _
          · simp [hu, hm, hf', hrec]
          · simp [hu, hm, hf', hrec]
      · simp [hu, hm]

theorem up_eq {f : Formula} {r : FormulaR × List Int}
    (h : upF (occ f + 1) f = some r) : up f = r := by
  rw [up, h]; rfl

theorem up_spec (f : Formula) : upF (occ f + 1) f = some (up f) := by
  have h : (upF (occ f + 1) f).isSome := upF_isSome (by omega)
  rcases hr : upF (occ f + 1) f with _ | r
  · rw [hr] at h; exact absurd h (by simp)
  · rw [up_eq hr]

/-! ### More facts about `make_literals_true`, `ple` and `select_next_literal` -/

theorem mltL_ok_occ_le : ∀ {ls : List Int} {f f' : Formula},
    make_literals_true f ls = some (.ok f') → occ f' ≤ occ f := by
  intro ls
  induction ls with
  | nil =>
    intro f f' h
    simp only [make_literals_true, Option.some.injEq, FormulaR.ok.injEq] at h
    rw [h]
  | cons l rest ih =>
    intro f f' h
    rw [make_literals_true] at h
    rcases hm : _make_literal_true f l with g | _
    · simp only [hm] at h
      exact le_trans (ih h) (mlt_occ_le hm)
    · simp only [hm] at h
      by_cases hr : rest = []
      · simp [hr] at h
      · simp [hr] at h

theorem mltL_ok_occs_subset : ∀ {ls : List Int} {f f' : Formula},
    make_literals_true f ls = some (.ok f') → ∀ x ∈ occs f', x ∈ occs f := by
  intro ls
  induction ls with
  | nil =>
    intro f f' h
    simp only [make_literals_true, Option.some.injEq, FormulaR.ok.injEq] at h
    rw [h]
    exact fun x hx => hx
  | cons l rest ih =>
    intro f f' h
    rw [make_literals_true] at h
    rcases hm : _make_literal_true f l with g | _
    · simp only [hm] at h
      exact fun x hx => mlt_occs_subset hm x (ih h x hx)
    · simp only [hm] at h
      by_cases hr : rest = []
      · simp [hr] at h
      · simp [hr] at h

theorem ple_mltL {f : Formula} {r : FormulaR} {pv : List Int}
    (h : ple f = some (r, pv)) :
    make_literals_true f (pureLiterals f) = some r ∧ pv = pureLiterals f := by
  rw [ple] at h
  rcases hm : make_literals_true f (pureLiterals f) with _ | r'
  · rw [hm] at h; exact absurd h (by simp)
  · rw [hm] at h
    simp at h
    rcases h with ⟨h1, h2⟩
    rw [h1, ← h2]
    exact ⟨rfl, rfl⟩

theorem ple_occ_le {f f1 : Formula} {pv : List Int}
    (h : ple f = some (.ok f1, pv)) : occ f1 ≤ occ f :=
  mltL_ok_occ_le (ple_mltL h).1

theorem ple_occs_subset {f f1 : Formula} {pv : List Int}
    (h : ple f = some (.ok f1, pv)) : ∀ x ∈ occs f1, x ∈ occs f :=
  mltL_ok_occs_subset (ple_mltL h).1

theorem select_spec {f : Formula} {l : Int}
    (h : select_next_literal f = some l) :
    ∃ c cs, f = c :: cs ∧ l ∈ c := by
  rcases f with _ | ⟨c, cs⟩
  · exact Option.noConfusion h
  · rw [select_next_literal] at h
    rcases c with _ | ⟨a, t⟩
    · exact absurd h (by simp)
    · simp only [List.head?_cons, Option.some.injEq] at h
      exact ⟨a :: t, cs, rfl, by rw [← h]; simp⟩

theorem dpll_getD_val {f : Formula} {v s : List Int}
    (h : _dpll f v = .val s) : _dpllF (occ f + 1) f v = some (.val s) := by
  rw [_dpll] at h
  rcases ho : _dpllF (occ f + 1) f v with _ | d
  · rw [ho] at h; exact absurd h (by simp)
  · rw [ho] at h
    simp only [Option.getD_some] at h
    rw [h]

/-! ### Fuel sufficiency for the search -/

theorem dpllF_isSome {fuel : Nat} : ∀ {f : Formula} {v : List Int},
    occ f < fuel → (_dpllF fuel f v).isSome := by
  induction fuel with
  | zero => intro f v h; omega
  | succ n ih =>
    intro f v hlt
    rw [_dpllF]
    rcases ple_ok f with ⟨f1, hple, hsub1, _⟩
    simp only [hple]
    have hocc1 : occ f1 ≤ occ f := ple_occ_le hple
    rcases hup : up f1 with ⟨fr, uv⟩
    have hupF := up_spec f1
    rw [hup] at hupF
    rcases fr with f2 | _
    · have hocc2 : occ f2 ≤ occ f1 := (upF_ok hupF).2.1
      by_cases hf2 : f2 = []
      · simp [hup, hf2]
      · simp only [hup, if_neg hf2]
        rcases hsel : select_next_literal f2 with _ | lit
        · simp
        · rcases select_spec hsel with ⟨c, cs, rfl, hlc⟩
          have hcmem : c ∈ c :: cs := List.mem_cons_self _ _
          rcases hma : _make_literal_true (c :: cs) lit with fa | _
          · have hda : occ fa < occ (c :: cs) := mlt_occ_lt hma hcmem (Or.inl hlc)
            have hsa := ih (f := fa) (v := v ++ (pureLiterals f ++ (uv ++ [lit])))
              (by omega)
            rcases hra : _dpllF n fa (v ++ (pureLiterals f ++ (uv ++ [lit])))
              with _ | d
            · rw [hra] at hsa; exact absurd hsa (by simp)
            · rcases d with _ | s1
              · simp [hma, hra]
              · by_cases hs1 : s1 = []
                · subst hs1
                  rcases hmb : _make_literal_true (c :: cs) (-lit) with fb | _
                  · have hdb : occ fb < occ (c :: cs) :=
                      mlt_occ_lt hmb hcmem (Or.inr (by rwa [neg_neg]))
                    have hsb := ih (f := fb)
                      (v := v ++ (pureLiterals f ++ (uv ++ [-lit]))) (by omega)
                    rcases hrb : _dpllF n fb (v ++ (pureLiterals f ++ (uv ++ [-lit])))
                      with _ | d2
                    · rw [hrb] at hsb; exact absurd hsb (by simp)
                    · rcases d2 with _ | s2
                      · simp [hma, hra, hmb, hrb]
                      · by_cases hs2 : s2 = [] <;> simp [hma, hra, hmb, hrb, hs2]
                  · simp [hma, hra, hmb]
                · simp [hma, hra, hs1]
          · simp [hma]
    · simp [hup]

/-! ### Soundness: every original clause keeps a literal of the valuation -/

theorem mlt_hit {f f' : Formula} {L : Int} {s : List Int}
    (h : _make_literal_true f L = .ok f') (hL : L ∈ s)
    (hf' : ∀ c ∈ f', ∃ l ∈ c, l ∈ s) : ∀ c ∈ f, ∃ l ∈ c, l ∈ s := by
  intro c hc
  by_cases hLc : L ∈ c
  · exact ⟨L, hLc, hL⟩
  · have hmem : c.erase (-L) ∈ f' := by
      rw [mlt_ok_eq h]
      exact List.mem_map_of_mem _ (List.mem_filter.2 ⟨hc, by simpa using hLc⟩)
    rcases hf' _ hmem with ⟨l, hl1, hl2⟩
    exact ⟨l, List.erase_subset _ _ hl1, hl2⟩

theorem mltL_hit : ∀ {ls : List Int} {f f' : Formula} {s : List Int},
    make_literals_true f ls = some (.ok f') → (∀ l ∈ ls, l ∈ s) →
    (∀ c ∈ f', ∃ l ∈ c, l ∈ s) → ∀ c ∈ f, ∃ l ∈ c, l ∈ s := by
  intro ls
  induction ls with
  | nil =>
    intro f f' s h _ hf'
    simp only [make_literals_true, Option.some.injEq, FormulaR.ok.injEq] at h
    rw [h]; exact hf'
  | cons l rest ih =>
    intro f f' s h hls hf'
    rw [make_literals_true] at h
    rcases hm : _make_literal_true f l with g | _
    · simp only [hm] at h
      exact mlt_hit hm (hls l (List.mem_cons_self _ _))
        (ih h (fun m hm' => hls m (List.mem_cons_of_mem _ hm')) hf')
    · simp only [hm] at h
      by_cases hr : rest = []
      · simp [hr] at h
      · simp [hr] at h

theorem upF_hit {fuel : Nat} : ∀ {f g : Formula} {vs : List Int} {s : List Int},
    upF fuel f = some (.ok g, vs) → (∀ l ∈ vs, l ∈ s) →
    (∀ c ∈ g, ∃ l ∈ c, l ∈ s) → ∀ c ∈ f, ∃ l ∈ c, l ∈ s := by
  induction fuel with
  | zero => intro f g vs s h; exact absurd h (by simp [upF])
  | succ n ih =>
    intro f g vs s h hvs hg
    rw [upF] at h
    rcases hu : getUnitLit f with _ | l
    · simp only [hu, Option.some.injEq, Prod.mk.injEq] at h
      rcases h with ⟨h1, _⟩
      cases h1
      exact hg
    · simp only [hu] at h
      rcases hm : _make_literal_true f l with f' | _
      · simp only [hm] at h
        by_cases hf' : f' = []
        · simp only [if_pos hf', Option.some.injEq, Prod.mk.injEq] at h
          rcases h with ⟨h1, h2⟩
          cases h1
          subst hf'
          have hls : l ∈ s := hvs l (by rw [← h2]; simp)
          exact mlt_hit hm hls (by intro c hc; simp at hc)
        · simp only [if_neg hf'] at h
          rcases hrec : upF n f' with _ | ⟨fr, vs'⟩
          · simp [hrec] at h
          rcases fr with g' | _
          · simp only [hrec, Option.some.injEq, Prod.mk.injEq] at h
            rcases h with ⟨h1, h2⟩
            cases h1
            have hls : l ∈ s := hvs l (by rw [← h2]; simp)
            have hvs' : ∀ m ∈ vs', m ∈ s :=
              fun m hm' => hvs m (by rw [← h2]; exact List.mem_cons_of_mem _ hm')
            exact mlt_hit hm hls (ih hrec hvs' hg)
          · simp [hrec] at h
      · simp [hm] at h

theorem ple_hit {f f1 : Formula} {pv : List Int} {s : List Int}
    (h : ple f = some (.ok f1, pv)) (hpv : ∀ l ∈ pv, l ∈ s)
    (hf1 : ∀ c ∈ f1, ∃ l ∈ c, l ∈ s) : ∀ c ∈ f, ∃ l ∈ c, l ∈ s := by
  rcases ple_mltL h with ⟨h1, h2⟩
  subst h2
  exact mltL_hit h1 hpv hf1

theorem dpllF_sound {fuel : Nat} : ∀ {f : Formula} {v s : List Int},
    _dpllF fuel f v = some (.val s) → s ≠ [] →
    (∀ c ∈ f, ∃ l ∈ c, l ∈ s) ∧ (∀ x ∈ v, x ∈ s) := by
  induction fuel with
  | zero => intro f v s h; exact absurd h (by simp [_dpllF])
  | succ n ih =>
    intro f v s h hs
    rw [_dpllF] at h
    rcases ple_ok f with ⟨f1, hple, _, _⟩
    simp only [hple] at h
    rcases hup : up f1 with ⟨fr, uv⟩
    have hupF := up_spec f1
    rw [hup] at hupF
    rcases fr with f2 | _
    · simp only [hup] at h
      by_cases hf2 : f2 = []
      · simp only [if_pos hf2, Option.some.injEq] at h
        subst hf2
        have hsv : s = v ++ (pureLiterals f ++ uv) := by
          cases h; simp
        have hv : ∀ x ∈ v, x ∈ s := by
          intro x hx; rw [hsv]; simp [hx]
        have hpv : ∀ x ∈ pureLiterals f, x ∈ s := by
          intro x hx; rw [hsv]; simp [hx]
        have huv : ∀ x ∈ uv, x ∈ s := by
          intro x hx; rw [hsv]; simp [hx]
        refine ⟨?_, hv⟩
        exact ple_hit hple hpv (upF_hit hupF huv (by intro c hc; simp at hc))
      · simp only [if_neg hf2] at h
        rcases hsel : select_next_literal f2 with _ | lit
        · simp [hsel] at h
        · simp only [hsel] at h
          split at h
          · exact absurd h (by simp)
          · rename_i fa hma
            split at h
            · exact absurd h (by simp)
            · exact absurd h (by simp)
            · rename_i s1 hra
              split at h
              · rename_i hs1
                simp only [Option.some.injEq, DpllOut.val.injEq] at h
                subst h
                rcases ih hra hs1 with ⟨hita, hsub⟩
                have hlit : lit ∈ s1 := hsub lit (by simp)
                have hv : ∀ x ∈ v, x ∈ s1 := fun x hx => hsub x (by simp [hx])
                have hpv : ∀ x ∈ pureLiterals f, x ∈ s1 :=
                  fun x hx => hsub x (by simp [hx])
                have huv : ∀ x ∈ uv, x ∈ s1 := fun x hx => hsub x (by simp [hx])
                exact ⟨ple_hit hple hpv
                  (upF_hit hupF huv (mlt_hit hma hlit hita)), hv⟩
              · rename_i hs1
                split at h
                · exact absurd h (by simp)
                · rename_i fb hmb
                  split at h
                  · exact absurd h (by simp)
                  · exact absurd h (by simp)
                  · rename_i s2 hrb
                    split at h
                    · rename_i hs2
                      simp only [Option.some.injEq, DpllOut.val.injEq] at h
                      subst h
                      rcases ih hrb hs2 with ⟨hitb, hsub⟩
                      have hlit : -lit ∈ s2 := hsub (-lit) (by simp)
                      have hv : ∀ x ∈ v, x ∈ s2 := fun x hx => hsub x (by simp [hx])
                      have hpv : ∀ x ∈ pureLiterals f, x ∈ s2 :=
                        fun x hx => hsub x (by simp [hx])
                      have huv : ∀ x ∈ uv, x ∈ s2 :=
                        fun x hx => hsub x (by simp [hx])
                      exact ⟨ple_hit hple hpv
                        (upF_hit hupF huv (mlt_hit hmb hlit hitb)), hv⟩
                    · rename_i hs2
                      simp only [Option.some.injEq, DpllOut.val.injEq] at h
                      exact absurd h.symm hs
    · simp only [hup, Option.some.injEq, DpllOut.val.injEq] at h
      exact absurd h.symm hs

/-! ### Structure of the valuation returned by the search -/

theorem nodup_vars_append {a b : List Int}
    (ha : (a.map Int.natAbs).Nodup) (hb : (b.map Int.natAbs).Nodup)
    (hd : ∀ x ∈ a, ∀ y ∈ b, x.natAbs ≠ y.natAbs) :
    ((a ++ b).map Int.natAbs).Nodup := by
  rw [List.map_append, List.nodup_append]
  refine ⟨ha, hb, ?_⟩
  intro n hna hnb
  rcases List.mem_map.1 hna with ⟨x, hx, rfl⟩
  rcases List.mem_map.1 hnb with ⟨y, hy, hxy⟩
  exact hd x hx y hy hxy.symm

theorem dpllF_val_structure {fuel : Nat} : ∀ {f : Formula} {v s : List Int},
    cleanF f → (v.map Int.natAbs).Nodup →
    (∀ x ∈ occs f, ∀ m ∈ v, x.natAbs ≠ m.natAbs) →
    _dpllF fuel f v = some (.val s) → s ≠ [] →
    ∃ w, s = v ++ w ∧ (s.map Int.natAbs).Nodup ∧
      (∀ l ∈ w, ∃ m ∈ occs f, m.natAbs = l.natAbs) := by
  induction fuel with
  | zero => intro f v s _ _ _ h; exact absurd h (by simp [_dpllF])
  | succ n ih =>
    intro f v s hcf hvnd hdisj h hs
    rw [_dpllF] at h
    rcases ple_ok f with ⟨f1, hple, hsub1, hpv1⟩
    have hcf1 : cleanF f1 := fun c hc => hcf c (hsub1 c hc)
    have hoccs1 : ∀ x ∈ occs f1, x ∈ occs f := occs_subset_of_clauses_subset hsub1
    have hpvnd := pureLiterals_vars_nodup f
    have hpvocc : ∀ l ∈ pureLiterals f, l ∈ occs f :=
      fun l hl => (mem_pureLiterals.1 hl).1
    simp only [hple] at h
    rcases hup : up f1 with ⟨fr, uv⟩
    have hupF := up_spec f1
    rw [hup] at hupF
    rcases fr with f2 | _
    · rcases upF_ok hupF with ⟨hoccs2, _, _, hclean2p, _, huvsub⟩
      have hcf2 : cleanF f2 := hclean2p hcf1
      rcases upF_vals_clean hcf1 hupF with ⟨huvnd, huvabs⟩
      have hdvpv : ∀ x ∈ v, ∀ y ∈ pureLiterals f, x.natAbs ≠ y.natAbs :=
        fun x hx y hy => (hdisj y (hpvocc y hy) x hx).symm
      have hdvuv : ∀ x ∈ v, ∀ y ∈ uv, x.natAbs ≠ y.natAbs :=
        fun x hx y hy => (hdisj y (hoccs1 y (huvsub y hy)) x hx).symm
      have hdpvuv : ∀ x ∈ pureLiterals f, ∀ y ∈ uv, x.natAbs ≠ y.natAbs := by
        intro x hx y hy hxy
        have hyf1 : y ∈ occs f1 := huvsub y hy
        rcases Int.natAbs_eq_natAbs_iff.1 hxy with heq | heq
        · rw [← heq] at hyf1
          exact (hpv1 x hx).1 hyf1
        · have hyx : y = -x := by omega
          rw [hyx] at hyf1
          exact (hpv1 x hx).2 hyf1
      have hndvpu : ((v ++ pureLiterals f ++ uv).map Int.natAbs).Nodup := by
        refine nodup_vars_append (nodup_vars_append hvnd hpvnd hdvpv) huvnd ?_
        intro x hx y hy
        rcases List.mem_append.1 hx with hx | hx
        · exact hdvuv x hx y hy
        · exact hdpvuv x hx y hy
      simp only [hup] at h
      by_cases hf2 : f2 = []
      · simp only [if_pos hf2, Option.some.injEq] at h
        have hsv : s = v ++ (pureLiterals f ++ uv) := by
          cases h; simp
        refine ⟨pureLiterals f ++ uv, hsv,
          by rw [hsv, ← List.append_assoc]; exact hndvpu, ?_⟩
        intro l hl
        rcases List.mem_append.1 hl with hl | hl
        · exact ⟨l, hpvocc l hl, rfl⟩
        · exact ⟨l, hoccs1 l (huvsub l hl), rfl⟩
      · simp only [if_neg hf2] at h
        rcases hsel : select_next_literal f2 with _ | lit
        · simp [hsel] at h
        · simp only [hsel] at h
          rcases select_spec hsel with ⟨c, cs, hf2eq, hlc⟩
          have hlitf2 : lit ∈ occs f2 :=
            mem_occs.2 ⟨c, by rw [hf2eq]; exact List.mem_cons_self _ _, hlc⟩
          have hlitf1 : lit ∈ occs f1 := hoccs2 lit hlitf2
          have hlitf : lit ∈ occs f := hoccs1 lit hlitf1
          have hdlit : ∀ x, x ∈ v ∨ x ∈ pureLiterals f ∨ x ∈ uv →
              x.natAbs ≠ lit.natAbs := by
            intro x hx hxl
            rcases hx with hx | hx | hx
            · exact hdisj lit hlitf x hx hxl.symm
            · rcases Int.natAbs_eq_natAbs_iff.1 hxl with heq | heq
              · rw [heq] at hx
                exact (hpv1 lit hx).1 hlitf1
              · rw [heq] at hx
                exact (hpv1 (-lit) hx).2 (by simpa using hlitf1)
            · rcases Int.natAbs_eq_natAbs_iff.1 hxl with heq | heq
              · rw [heq] at hx
                exact (huvabs lit hx).1 hlitf2
              · rw [heq] at hx
                exact (huvabs (-lit) hx).2 (by simpa using hlitf2)
          split at h
          · exact absurd h (by simp)
          · rename_i fa hma
            split at h
            · exact absurd h (by simp)
            · exact absurd h (by simp)
            · rename_i s1 hra
              have hoccsa : ∀ x ∈ occs fa, x ∈ occs f2 := mlt_occs_subset hma
              have hcfa : cleanF fa := mlt_clean hcf2 hma
              have hlitnota : lit ∉ occs fa := mlt_self_not_mem hma
              have hlitnegnota : -lit ∉ occs fa := mlt_neg_not_mem hcf2 hma
              split at h
              · rename_i hs1
                simp only [Option.some.injEq, DpllOut.val.injEq] at h
                subst h
                have hnda : (((v ++ pureLiterals f ++ uv) ++ [lit]).map
                    Int.natAbs).Nodup := by
                  refine nodup_vars_append hndvpu (by simp) ?_
                  intro x hx y hy
                  simp only [List.mem_singleton] at hy
                  rw [hy]
                  rcases List.mem_append.1 hx with hx | hx
                  · rcases List.mem_append.1 hx with hx | hx
                    · exact hdlit x (Or.inl hx)
                    · exact hdlit x (Or.inr (Or.inl hx))
                  · exact hdlit x (Or.inr (Or.inr hx))
                have hdja : ∀ x ∈ occs fa, ∀ m ∈ (v ++ pureLiterals f ++ uv) ++ [lit],
                    x.natAbs ≠ m.natAbs := by
                  intro x hx m hm
                  rcases List.mem_append.1 hm with hm | hm
                  · rcases List.mem_append.1 hm with hm | hm
                    · rcases List.mem_append.1 hm with hm | hm
                      · exact hdisj x (hoccs1 x (hoccs2 x (hoccsa x hx))) m hm
                      · intro hxm
                        rcases Int.natAbs_eq_natAbs_iff.1 hxm with heq | heq
                        · rw [heq] at hx
                          exact (hpv1 m hm).1 (hoccs2 m (hoccsa m hx))
                        · rw [heq] at hx
                          exact (hpv1 m hm).2 (hoccs2 _ (hoccsa _ hx))
                    · intro hxm
                      rcases Int.natAbs_eq_natAbs_iff.1 hxm with heq | heq
                      · rw [heq] at hx
                        exact (huvabs m hm).1 (hoccsa m hx)
                      · rw [heq] at hx
                        exact (huvabs m hm).2 (hoccsa _ hx)
                  · simp only [List.mem_singleton] at hm
                    rw [hm]
                    intro hxm
                    rcases Int.natAbs_eq_natAbs_iff.1 hxm with heq | heq
                    · rw [heq] at hx
                      exact hlitnota hx
                    · rw [heq] at hx
                      exact hlitnegnota hx
                obtain ⟨w', hw', hsnd, hwvar⟩ := ih hcfa hnda hdja hra hs1
                refine ⟨(pureLiterals f ++ uv) ++ ([lit] ++ w'), by rw [hw']; simp,
                  hsnd, ?_⟩
                intro l hl
                rcases List.mem_append.1 hl with hl | hl
                · rcases List.mem_append.1 hl with hl | hl
                  · exact ⟨l, hpvocc l hl, rfl⟩
                  · exact ⟨l, hoccs1 l (huvsub l hl), rfl⟩
                · rcases List.mem_append.1 hl with hl | hl
                  · simp only [List.mem_singleton] at hl
                    rw [hl]
                    exact ⟨lit, hlitf, rfl⟩
                  · rcases hwvar l hl with ⟨m, hm, hmv⟩
                    exact ⟨m, hoccs1 m (hoccs2 m (hoccsa m hm)), hmv⟩
              · rename_i hs1
                split at h
                · exact absurd h (by simp)
                · rename_i fb hmb
                  split at h
                  · exact absurd h (by simp)
                  · exact absurd h (by simp)
                  · rename_i s2 hrb
                    have hoccsb : ∀ x ∈ occs fb, x ∈ occs f2 := mlt_occs_subset hmb
                    have hcfb : cleanF fb := mlt_clean hcf2 hmb
                    have hlitnotb : -lit ∉ occs fb := mlt_self_not_mem hmb
                    have hlitnegnotb : lit ∉ occs fb := by
                      have := mlt_neg_not_mem hcf2 hmb
                      rwa [neg_neg] at this
                    split at h
                    · rename_i hs2
                      simp only [Option.some.injEq, DpllOut.val.injEq] at h
                      subst h
                      have hndb : (((v ++ pureLiterals f ++ uv) ++ [-lit]).map
                          Int.natAbs).Nodup := by
                        refine nodup_vars_append hndvpu (by simp) ?_
                        intro x hx y hy
                        simp only [List.mem_singleton] at hy
                        rw [hy, Int.natAbs_neg]
                        rcases List.mem_append.1 hx with hx | hx
                        · rcases List.mem_append.1 hx with hx | hx
                          · exact hdlit x (Or.inl hx)
                          · exact hdlit x (Or.inr (Or.inl hx))
                        · exact hdlit x (Or.inr (Or.inr hx))
                      have hdjb : ∀ x ∈ occs fb,
                          ∀ m ∈ (v ++ pureLiterals f ++ uv) ++ [-lit],
                          x.natAbs ≠ m.natAbs := by
                        intro x hx m hm
                        rcases List.mem_append.1 hm with hm | hm
                        · rcases List.mem_append.1 hm with hm | hm
                          · rcases List.mem_append.1 hm with hm | hm
                            · exact hdisj x (hoccs1 x (hoccs2 x (hoccsb x hx))) m hm
                            · intro hxm
                              rcases Int.natAbs_eq_natAbs_iff.1 hxm with heq | heq
                              · rw [heq] at hx
                                exact (hpv1 m hm).1 (hoccs2 m (hoccsb m hx))
                              · rw [heq] at hx
                                exact (hpv1 m hm).2 (hoccs2 _ (hoccsb _ hx))
                          · intro hxm
                            rcases Int.natAbs_eq_natAbs_iff.1 hxm with heq | heq
                            · rw [heq] at hx
                              exact (huvabs m hm).1 (hoccsb m hx)
                            · rw [heq] at hx
                              exact (huvabs m hm).2 (hoccsb _ hx)
                        · simp only [List.mem_singleton] at hm
                          rw [hm]
                          intro hxm
                          rw [Int.natAbs_neg] at hxm
                          rcases Int.natAbs_eq_natAbs_iff.1 hxm with heq | heq
                          · rw [heq] at hx
                            exact hlitnegnotb hx
                          · rw [heq] at hx
                            exact hlitnotb hx
                      obtain ⟨w', hw', hsnd, hwvar⟩ := ih hcfb hndb hdjb hrb hs2
                      refine ⟨(pureLiterals f ++ uv) ++ ([-lit] ++ w'),
                        by rw [hw']; simp, hsnd, ?_⟩
                      intro l hl
                      rcases List.mem_append.1 hl with hl | hl
                      · rcases List.mem_append.1 hl with hl | hl
                        · exact ⟨l, hpvocc l hl, rfl⟩
                        · exact ⟨l, hoccs1 l (huvsub l hl), rfl⟩
                      · rcases List.mem_append.1 hl with hl | hl
                        · simp only [List.mem_singleton] at hl
                          rw [hl]
                          exact ⟨lit, hlitf, by simp⟩
                        · rcases hwvar l hl with ⟨m, hm, hmv⟩
                          exact ⟨m, hoccs1 m (hoccs2 m (hoccsb m hm)), hmv⟩
                    · rename_i hs2
                      simp only [Option.some.injEq, DpllOut.val.injEq] at h
                      exact absurd h.symm hs
    · simp only [hup, Option.some.injEq, DpllOut.val.injEq] at h
      exact absurd h.symm hs

/-! ### The stable sort by variable magnitude -/

theorem mem_insAbs {x y : Int} : ∀ {l : List Int}, y ∈ insAbs x l ↔ y = x ∨ y ∈ l := by
  intro l
  induction l with
  | nil => simp [insAbs]
  | cons z zs ih =>
    rw [insAbs]
    by_cases hz : z.natAbs < x.natAbs
    · rw [if_pos hz]
      simp only [List.mem_cons, ih]
      tauto
    · rw [if_neg hz]
      simp

theorem insAbs_perm (x : Int) : ∀ (l : List Int), (insAbs x l).Perm (x :: l) := by
  intro l
  induction l with
  | nil => simp [insAbs]
  | cons z zs ih =>
    rw [insAbs]
    by_cases hz : z.natAbs < x.natAbs
    · rw [if_pos hz]
      exact (List.Perm.cons z ih).trans (List.Perm.swap x z zs)
    · rw [if_neg hz]

theorem sortAbs_perm : ∀ (l : List Int), (sortAbs l).Perm l := by
  intro l
  induction l with
  | nil => simp [sortAbs]
  | cons x xs ih =>
    rw [sortAbs]
    exact (insAbs_perm x (sortAbs xs)).trans (List.Perm.cons x ih)

theorem mem_sortAbs {x : Int} {l : List Int} : x ∈ sortAbs l ↔ x ∈ l :=
  (sortAbs_perm l).mem_iff

theorem insAbs_sorted {x : Int} : ∀ {l : List Int},
    List.Pairwise (fun a b => a.natAbs ≤ b.natAbs) l →
    List.Pairwise (fun a b => a.natAbs ≤ b.natAbs) (insAbs x l) := by
  intro l
  induction l with
  | nil => intro _; simp [insAbs]
  | cons z zs ih =>
    intro h
    rcases List.pairwise_cons.1 h with ⟨hz, hzs⟩
    rw [insAbs]
    by_cases hlt : z.natAbs < x.natAbs
    · rw [if_pos hlt]
      refine List.pairwise_cons.2 ⟨?_, ih hzs⟩
      intro y hy
      rcases mem_insAbs.1 hy with rfl | hy
      · omega
      · exact hz y hy
    · rw [if_neg hlt]
      refine List.pairwise_cons.2 ⟨?_, h⟩
      intro y hy
      rcases List.mem_cons.1 hy with rfl | hy
      · omega
      · have := hz y hy
        omega

theorem sortAbs_sorted : ∀ (l : List Int),
    List.Pairwise (fun a b => a.natAbs ≤ b.natAbs) (sortAbs l) := by
  intro l
  induction l with
  | nil => simp [sortAbs]
  | cons x xs ih => exact insAbs_sorted ih

theorem sorted_lt_eq_of_mem_iff : ∀ {l1 l2 : List Nat},
    List.Pairwise (· < ·) l1 → List.Pairwise (· < ·) l2 →
    (∀ x, x ∈ l1 ↔ x ∈ l2) → l1 = l2 := by
  intro l1
  induction l1 with
  | nil =>
    intro l2 _ _ hmem
    rcases l2 with _ | ⟨b, t2⟩
    · rfl
    · exact absurd ((hmem b).2 (List.mem_cons_self _ _)) (by simp)
  | cons a t1 ih =>
    intro l2 h1 h2 hmem
    rcases l2 with _ | ⟨b, t2⟩
    · exact absurd ((hmem a).1 (List.mem_cons_self _ _)) (by simp)
    · rcases List.pairwise_cons.1 h1 with ⟨ha, ht1⟩
      rcases List.pairwise_cons.1 h2 with ⟨hb, ht2⟩
      have hab : a = b := by
        rcases List.mem_cons.1 ((hmem a).1 (List.mem_cons_self _ _)) with h | h
        · exact h
        · rcases List.mem_cons.1 ((hmem b).2 (List.mem_cons_self _ _)) with h' | h'
          · exact h'.symm
          · have := hb a h
            have := ha b h'
            omega
      subst hab
      have htails : ∀ x, x ∈ t1 ↔ x ∈ t2 := by
        intro x
        constructor
        · intro hx
          have hax := ht1
          have : x ∈ a :: t2 := (hmem x).1 (List.mem_cons_of_mem _ hx)
          rcases List.mem_cons.1 this with rfl | h
          · exact absurd (ha x hx) (by omega)
          · exact h
        · intro hx
          have : x ∈ a :: t1 := (hmem x).2 (List.mem_cons_of_mem _ hx)
          rcases List.mem_cons.1 this with rfl | h
          · exact absurd (hb x hx) (by omega)
          · exact h
      rw [ih ht1 ht2 htails]

/-! ### Driver-level lemmas -/

theorem dpll_cases {f : Formula} {n : Nat} {sol : List Int}
    (h : dpll f n = some (some sol)) :
    ∃ s, _dpll f [] = .val s ∧ s ≠ [] ∧ sol = sortAbs (missingVars s n ++ s) := by
  rw [dpll] at h
  rcases hd : _dpll f [] with _ | s
  · simp [hd] at h
  · simp only [hd] at h
    by_cases hs : s = []
    · rw [if_pos hs] at h
      exact absurd h (by simp)
    · rw [if_neg hs] at h
      simp only [Option.some.injEq] at h
      exact ⟨s, rfl, hs, h.symm⟩

theorem dpll_sound (f : Formula) (n : Nat) (sol : List Int)
    (h : dpll f n = some (some sol)) : ∀ c ∈ f, ∃ l ∈ c, l ∈ sol := by
  rcases dpll_cases h with ⟨s, hd, hs, hsol⟩
  have hF := dpll_getD_val hd
  rcases dpllF_sound hF hs with ⟨hhit, _⟩
  intro c hc
  rcases hhit c hc with ⟨l, hlc, hls⟩
  refine ⟨l, hlc, ?_⟩
  rw [hsol, mem_sortAbs]
  exact List.mem_append.2 (Or.inr hls)

theorem missingVars_map_natAbs (s : List Int) (n : Nat) :
    (missingVars s n).map Int.natAbs =
      (List.range' 1 n).filter
        (fun i => decide (((i : Nat) : Int) ∉ s) && decide ((-((i : Nat) : Int)) ∉ s)) := by
  rw [missingVars, List.map_map]
  have : (Int.natAbs ∘ fun i : Nat => ((i : Nat) : Int)) = id := by
    funext i
    simp
  rw [this, List.map_id]

theorem dpll_total (f : Formula) (n : Nat) (sol : List Int)
    (hclean : ∀ c ∈ f, c.Nodup)
    (hrange : ∀ c ∈ f, ∀ l ∈ c, l ≠ 0 ∧ l.natAbs ≤ n)
    (h : dpll f n = some (some sol)) :
    sol.map Int.natAbs = List.range' 1 n ∧
    ∀ i : Nat, 1 ≤ i → i ≤ n →
      ∀ s, _dpll f [] = .val s → ((i : Int) ∉ s ∧ -(i : Int) ∉ s) →
        (i : Int) ∈ sol := by
  rcases dpll_cases h with ⟨s, hd, hs, hsol⟩
  have hF := dpll_getD_val hd
  obtain ⟨w, hw, hsnd, hwvar⟩ :=
    dpllF_val_structure hclean (by simp) (by simp) hF hs
  rw [List.nil_append] at hw
  subst hw
  have hsvars : ∀ l ∈ s, 1 ≤ l.natAbs ∧ l.natAbs ≤ n := by
    intro l hl
    rcases hwvar l hl with ⟨m, hm, hmv⟩
    rcases mem_occs.1 hm with ⟨c, hc, hmc⟩
    rcases hrange c hc m hmc with ⟨hm0, hmn⟩
    have : 1 ≤ m.natAbs := by
      rcases Int.natAbs_eq m with he | he <;> omega
    omega
  set base := missingVars s n ++ s with hbase
  have hbnd : (base.map Int.natAbs).Nodup := by
    apply nodup_vars_append _ hsnd
    · intro x hx y hy hxy
      rw [missingVars] at hx
      rcases List.mem_map.1 hx with ⟨i, hi, rfl⟩
      rcases List.mem_filter.1 hi with ⟨_, hp⟩
      simp only [Bool.and_eq_true, decide_eq_true_eq] at hp
      rcases hp with ⟨hp1, hp2⟩
      rcases Int.natAbs_eq_natAbs_iff.1 hxy.symm with heq | heq
      · exact hp1 (heq ▸ hy)
      · exact hp2 (heq ▸ hy)
    · rw [missingVars_map_natAbs]
      exact (List.filter_sublist _).nodup (List.nodup_range' _ _)
  have hbmem : ∀ i : Nat, i ∈ base.map Int.natAbs ↔ i ∈ List.range' 1 n := by
    intro i
    constructor
    · intro hi
      rcases List.mem_map.1 hi with ⟨x, hx, rfl⟩
      rcases List.mem_append.1 hx with hx | hx
      · rw [missingVars] at hx
        rcases List.mem_map.1 hx with ⟨j, hj, rfl⟩
        rw [Int.natAbs_ofNat]
        exact List.mem_of_mem_filter hj
      · rcases hsvars x hx with ⟨h1, h2⟩
        rw [List.mem_range'_1]
        omega
    · intro hi
      by_cases hcase : ((i : Nat) : Int) ∈ s ∨ (-((i : Nat) : Int)) ∈ s
      · rcases hcase with hc | hc
        · exact List.mem_map.2 ⟨(i : Int), List.mem_append.2 (Or.inr hc), by simp⟩
        · exact List.mem_map.2 ⟨-(i : Int), List.mem_append.2 (Or.inr hc), by simp⟩
      · push_neg at hcase
        refine List.mem_map.2 ⟨(i : Int), List.mem_append.2 (Or.inl ?_), by simp⟩
        rw [missingVars]
        refine List.mem_map.2 ⟨i, ?_, rfl⟩
        refine List.mem_filter.2 ⟨hi, ?_⟩
        simp only [Bool.and_eq_true, decide_eq_true_eq]
        exact hcase
  have hperm : sol.Perm base := by
    rw [hsol]; exact sortAbs_perm _
  have hsolmem : ∀ i : Nat, i ∈ sol.map Int.natAbs ↔ i ∈ List.range' 1 n := by
    intro i
    rw [← hbmem i]
    exact (hperm.map Int.natAbs).mem_iff
  have hsolnd : (sol.map Int.natAbs).Nodup :=
    ((hperm.map Int.natAbs).nodup_iff).2 hbnd
  have hsolsorted : List.Pairwise (· ≤ ·) (sol.map Int.natAbs) := by
    rw [List.pairwise_map]
    rw [hsol]
    exact sortAbs_sorted _
  have hsollt : List.Pairwise (· < ·) (sol.map Int.natAbs) := by
    have := List.Pairwise.and hsolsorted hsolnd
    exact this.imp (fun h => lt_of_le_of_ne h.1 h.2)
  constructor
  · exact sorted_lt_eq_of_mem_iff hsollt (List.pairwise_lt_range' _ _) hsolmem
  · intro i _ _ s' hs' hnotin
    have hss' : s' = s := by
      rw [hd] at hs'
      exact (DpllOut.val.injEq _ _ ▸ hs').symm
    subst hss'
    rw [hsol, mem_sortAbs]
    refine List.mem_append.2 (Or.inl ?_)
    rw [missingVars]
    refine List.mem_map.2 ⟨i, ?_, rfl⟩
    refine List.mem_filter.2 ⟨?_, ?_⟩
    · rw [List.mem_range'_1]
      omega
    · simp only [Bool.and_eq_true, decide_eq_true_eq]
      exact hnotin

/-! ### Semantics of `_make_literal_true` -/

theorem litSat_neg {σ : Nat → Bool} {l : Int} (h0 : l ≠ 0)
    (h : litSat σ l = true) : litSat σ (-l) = false := by
  rw [litSat] at h ⊢
  rw [Int.natAbs_neg]
  by_cases hl : 0 < l
  · rw [if_pos hl] at h
    rw [if_neg (by omega)]
    simp [h]
  · rw [if_neg hl] at h
    rw [if_pos (by omega)]
    simpa using h

theorem any_erase {c : Clause} {b : Int} {p : Int → Bool}
    (hb : b ∈ c) (hpb : p b = false) : (c.erase b).any p = c.any p := by
  induction c with
  | nil => simp at hb
  | cons a t ih =>
    by_cases hab : a = b
    · subst hab
      rw [List.erase_cons_head]
      simp [hpb]
    · rw [List.erase_cons_tail (by simpa using hab)]
      rcases List.mem_cons.1 hb with heq | hbt
      · exact absurd heq.symm hab
      · simp only [List.any_cons, ih hbt]

theorem clauseSat_erase {σ : Nat → Bool} {c : Clause} {l : Int}
    (hnl : l ∉ c) (hsat : litSat σ l = true) :
    clauseSat σ (c.erase (-l)) = clauseSat σ c := by
  by_cases hmem : -l ∈ c
  · have h0 : l ≠ 0 := by
      intro h
      rw [h] at hnl hmem
      exact hnl (by simpa using hmem)
    exact any_erase hmem (litSat_neg h0 hsat)
  · rw [List.erase_of_not_mem hmem]

theorem mlt_sat {f f' : Formula} {l : Int}
    (h : _make_literal_true f l = .ok f') (σ : Nat → Bool)
    (hsat : litSat σ l = true) : satF σ f' = satF σ f := by
  rw [mlt_ok_eq h]
  clear h
  induction f with
  | nil => simp
  | cons c cs ih =>
    by_cases hc : l ∈ c
    · rw [List.filter_cons, if_neg (by simpa using hc)]
      have hcsat : clauseSat σ c = true :=
        List.any_eq_true.2 ⟨l, hc, hsat⟩
      simp only [satF, List.all_cons] at ih ⊢
      rw [hcsat, ih]
      simp
    · rw [List.filter_cons, if_pos (by simpa using hc), List.map_cons]
      simp only [satF, List.all_cons] at ih ⊢
      have hce : clauseSat σ (c.erase (-l)) = clauseSat σ c :=
        clauseSat_erase hc hsat
      rw [hce, ih]

/-! ### Variables and the recursion-depth bound -/

theorem mem_varSet {f : Formula} {x : Nat} :
    x ∈ varSet f ↔ ∃ m ∈ occs f, m.natAbs = x := by
  rw [varSet, List.mem_toFinset]
  constructor
  · intro h
    rcases List.mem_map.1 h with ⟨m, hm, rfl⟩
    exact ⟨m, hm, rfl⟩
  · rintro ⟨m, hm, rfl⟩
    exact List.mem_map.2 ⟨m, hm, rfl⟩

theorem varSet_mono {f g : Formula} (h : ∀ x ∈ occs g, x ∈ occs f) :
    varSet g ⊆ varSet f := by
  intro x hx
  rcases mem_varSet.1 hx with ⟨m, hm, rfl⟩
  exact mem_varSet.2 ⟨m, h m hm, rfl⟩

theorem up_ok_occs {g1 g2 : Formula} {uv : List Int} (h : up g1 = (.ok g2, uv)) :
    ∀ x ∈ occs g2, x ∈ occs g1 := by
  have hupF := up_spec g1
  rw [h] at hupF
  exact (upF_ok hupF).1

theorem up_ok_occ_le {g1 g2 : Formula} {uv : List Int} (h : up g1 = (.ok g2, uv)) :
    occ g2 ≤ occ g1 := by
  have hupF := up_spec g1
  rw [h] at hupF
  exact (upF_ok hupF).2.1

theorem pleUp_eq {f f1 f2 : Formula} {pv uv : List Int}
    (hple : ple f = some (.ok f1, pv)) (hup : up f1 = (.ok f2, uv)) :
    pleUp f = some f2 := by
  rw [pleUp]
  simp only [hple, hup]

theorem pleUp_some {f g2 : Formula} (h : pleUp f = some g2) :
    ∃ g1 pv uv, ple f = some (.ok g1, pv) ∧ up g1 = (.ok g2, uv) := by
  rw [pleUp] at h
  rcases hp : ple f with _ | ⟨fr, pv⟩
  · simp [hp] at h
  · rcases fr with g1 | _
    · simp only [hp] at h
      rcases hu : up g1 with ⟨fr2, uv⟩
      rcases fr2 with g2' | _
      · simp only [hu, Option.some.injEq] at h
        exact ⟨g1, pv, uv, rfl, by rw [hu, h]⟩
      · simp [hu] at h
    · simp [hp] at h

theorem ple_kills_pure {f f1 : Formula} {pv : List Int} {x : Int}
    (hple : ple f = some (.ok f1, pv)) (hx : x ∉ occs f) : -x ∉ occs f1 := by
  by_cases hnx : -x ∈ occs f
  · rcases ple_ok f with ⟨f1', hple', _, hprops⟩
    rw [hple'] at hple
    simp only [Option.some.injEq, Prod.mk.injEq, FormulaR.ok.injEq] at hple
    rcases hple with ⟨h1, _⟩
    subst h1
    have hpure : -x ∈ pureLiterals f := mem_pureLiterals.2 ⟨hnx, by simpa using hx⟩
    exact (hprops _ hpure).1
  · intro hmem
    exact hnx (ple_occs_subset hple _ hmem)

theorem branchCard_lt {f2 fa : Formula} {s : Int}
    (hma : _make_literal_true f2 s = .ok fa) (hs : s.natAbs ∈ varSet f2) :
    branchCard fa < (varSet f2).card := by
  have hcard1 : 0 < (varSet f2).card := Finset.card_pos.2 ⟨_, hs⟩
  rcases hpu : pleUp fa with _ | fa2
  · simp only [branchCard, hpu]
    omega
  · simp only [branchCard, hpu]
    rcases pleUp_some hpu with ⟨fa1, pv2, uv2, hpa, hua⟩
    have hnots : s ∉ occs fa := mlt_self_not_mem hma
    have hnots1 : s ∉ occs fa1 := fun hmem => hnots (ple_occs_subset hpa _ hmem)
    have hnotneg1 : -s ∉ occs fa1 := ple_kills_pure hpa hnots
    have hoccs2 : ∀ x ∈ occs fa2, x ∈ occs fa1 := up_ok_occs hua
    have hsubset : varSet fa2 ⊆ (varSet f2).erase s.natAbs := by
      intro x hx
      rcases mem_varSet.1 hx with ⟨m, hm, rfl⟩
      have hm1 : m ∈ occs fa1 := hoccs2 m hm
      have hmf2 : m ∈ occs f2 :=
        mlt_occs_subset hma m (ple_occs_subset hpa m hm1)
      refine Finset.mem_erase.2 ⟨?_, mem_varSet.2 ⟨m, hmf2, rfl⟩⟩
      intro hms
      rcases Int.natAbs_eq_natAbs_iff.1 hms with heq | heq
      · rw [heq] at hm1; exact hnots1 hm1
      · rw [heq] at hm1; exact hnotneg1 hm1
    have := Finset.card_le_card hsubset
    rw [Finset.card_erase_of_mem hs] at this
    omega

theorem branchCard_le_numVars (f : Formula) : branchCard f ≤ numVars f := by
  rcases hpu : pleUp f with _ | f2
  · simp [branchCard, hpu, numVars]
  · simp only [branchCard, hpu, numVars]
    rcases pleUp_some hpu with ⟨f1, pv, uv, hple, hup⟩
    apply Finset.card_le_card
    apply varSet_mono
    intro x hx
    exact ple_occs_subset hple x (up_ok_occs hup x hx)

theorem depthF_le {fuel : Nat} : ∀ {f : Formula} {v : List Int},
    occ f < fuel → depthF fuel f v ≤ 1 + branchCard f := by
  induction fuel with
  | zero => intro f v h; omega
  | succ n ih =>
    intro f v hlt
    rw [depthF]
    rcases ple_ok f with ⟨f1, hple, _, _⟩
    simp only [hple]
    have hocc1 : occ f1 ≤ occ f := ple_occ_le hple
    rcases hup : up f1 with ⟨fr, uv⟩
    rcases fr with f2 | _
    · have hocc2 : occ f2 ≤ occ f1 := up_ok_occ_le hup
      by_cases hf2 : f2 = []
      · simp [hup, hf2]
      · simp only [hup, if_neg hf2]
        rcases hsel : select_next_literal f2 with _ | lit
        · simp [hsel]
        · simp only [hsel]
          have hbc : branchCard f = (varSet f2).card := by
            simp only [branchCard, pleUp_eq hple hup]
          rcases select_spec hsel with ⟨c, cs, hf2eq, hlc⟩
          have hlitf2 : lit ∈ occs f2 := by
            rw [hf2eq]
            exact mem_occs.2 ⟨c, List.mem_cons_self _ _, hlc⟩
          have hvlit : lit.natAbs ∈ varSet f2 := mem_varSet.2 ⟨lit, hlitf2, rfl⟩
          have hcard1 : 0 < (varSet f2).card := Finset.card_pos.2 ⟨_, hvlit⟩
          rcases hma : _make_literal_true f2 lit with fa | _
          · have hda : occ fa < occ f2 := by
              rw [hf2eq] at hma ⊢
              exact mlt_occ_lt hma (List.mem_cons_self _ _) (Or.inl hlc)
            have hiha : ∀ w : List Int, depthF n fa w ≤ 1 + branchCard fa :=
              fun w => ih (by omega)
            have hba : branchCard fa < (varSet f2).card := branchCard_lt hma hvlit
            simp only [hma]
            split
            · have hW := hiha (v ++ pureLiterals f ++ uv ++ [lit])
              omega
            · have hW := hiha (v ++ pureLiterals f ++ uv ++ [lit])
              omega
            · split
              · have hW := hiha (v ++ pureLiterals f ++ uv ++ [lit])
                omega
              · rcases hmb : _make_literal_true f2 (-lit) with fb | _
                · have hdb : occ fb < occ f2 := by
                    rw [hf2eq] at hmb ⊢
                    refine mlt_occ_lt hmb (List.mem_cons_self _ _) (Or.inr ?_)
                    rwa [neg_neg]
                  have hihb : ∀ w : List Int, depthF n fb w ≤ 1 + branchCard fb :=
                    fun w => ih (by omega)
                  have hbb : branchCard fb < (varSet f2).card := by
                    apply branchCard_lt hmb
                    rwa [Int.natAbs_neg]
                  simp only [hmb]
                  have hWa := hiha (v ++ pureLiterals f ++ uv ++ [lit])
                  have hWb := hihb (v ++ pureLiterals f ++ uv ++ [-lit])
                  refine max_le ?_ ?_ <;> omega
                · simp only [hmb]
                  have hWa := hiha (v ++ pureLiterals f ++ uv ++ [lit])
                  refine max_le ?_ ?_ <;> omega
          · simp only [hma]
            omega
    · simp [hup]

theorem dpllDepth_le (f : Formula) (v : List Int) :
    dpllDepth f v ≤ numVars f + 1 := by
  have h1 : depthF (occ f + 1) f v ≤ 1 + branchCard f := depthF_le (by omega)
  have h2 := branchCard_le_numVars f
  rw [dpllDepth]
  omega

/-! ### The branch-point invariant -/

theorem ple_clauses_subset {f f1 : Formula} {pv : List Int}
    (h : ple f = some (.ok f1, pv)) : ∀ c ∈ f1, c ∈ f := by
  rcases ple_ok f with ⟨f1', h', hsub, _⟩
  rw [h'] at h
  simp only [Option.some.injEq, Prod.mk.injEq, FormulaR.ok.injEq] at h
  rcases h with ⟨h1, _⟩
  rw [← h1]
  exact hsub

theorem up_ok_noEmpty {g1 g2 : Formula} {uv : List Int}
    (h : up g1 = (.ok g2, uv)) (hne : noEmptyClause g1) : noEmptyClause g2 := by
  have hupF := up_spec g1
  rw [h] at hupF
  exact (upF_ok hupF).2.2.2.2.1 hne

theorem up_ok_no_unit {g1 g2 : Formula} {uv : List Int}
    (h : up g1 = (.ok g2, uv)) : g2 = [] ∨ getUnitLit g2 = none := by
  have hupF := up_spec g1
  rw [h] at hupF
  exact (upF_ok hupF).2.2.1

theorem getUnitLit_none {g : Formula} (h : getUnitLit g = none) :
    ∀ c ∈ g, c.length ≠ 1 := by
  intro c hc hlen
  rw [getUnitLit] at h
  rcases ho : get_unit_clause g with _ | c'
  · rw [get_unit_clause] at ho
    have := List.find?_eq_none.1 ho c hc
    simp [hlen] at this
  · rw [ho] at h
    have hlen' : c'.length = 1 := by simpa using List.find?_some ho
    rcases c' with _ | ⟨x, ⟨_ | _⟩⟩
    · simp at hlen'
    · simp at h
    · simp at hlen'

theorem reaches_noEmpty {f g : Formula} (hne : noEmptyClause f)
    (hr : Reaches f g) : noEmptyClause g := by
  induction hr with
  | refl => exact hne
  | step hr hple hup hg2 hsel hsign hmlt ih =>
    have hne1 : noEmptyClause _ := fun c hc => ih c (ple_clauses_subset hple c hc)
    have hne2 : noEmptyClause _ := up_ok_noEmpty hup hne1
    exact mlt_noEmpty hne2 hmlt

theorem branch_invariant {g g1 g2 : Formula} {pv uv : List Int}
    (hne : noEmptyClause g)
    (hple : ple g = some (.ok g1, pv)) (hup : up g1 = (.ok g2, uv))
    (hg2 : g2 ≠ []) :
    (∀ c ∈ g2, 2 ≤ c.length) ∧
    ∀ s : Int, _make_literal_true g2 s ≠ .conflict := by
  have hne1 : noEmptyClause g1 := fun c hc => hne c (ple_clauses_subset hple c hc)
  have hne2 : noEmptyClause g2 := up_ok_noEmpty hup hne1
  have hnu : getUnitLit g2 = none := by
    rcases up_ok_no_unit hup with h | h
    · exact absurd h hg2
    · exact h
  have hlen : ∀ c ∈ g2, 2 ≤ c.length := by
    intro c hc
    have h1 : c.length ≠ 1 := getUnitLit_none hnu c hc
    have h0 : c ≠ [] := hne2 c hc
    have : c.length ≠ 0 := fun h => h0 (List.length_eq_zero.1 h)
    omega
  refine ⟨hlen, ?_⟩
  intro s hconf
  rcases (mlt_conflict_iff g2 s).1 hconf with ⟨c, hc, _, hnsc, herase⟩
  have h2 : 2 ≤ c.length := hlen c hc
  have : (c.erase (-s)).length + 1 = c.length := List.length_erase_add_one hnsc
  rw [herase] at this
  simp at this
  omega

/-! ## The claims -/

/-- C1: Soundness of the solver: whenever `dpll` returns an assignment (not
None), every clause of the original formula contains at least one literal of
the returned assignment. -/
theorem C1_soundness (f : Formula) (n : Nat) (sol : List Int)
    (h : dpll f n = some (some sol)) :
    ∀ c ∈ f, ∃ l ∈ c, l ∈ sol :=
  dpll_sound f n sol h

/-- C1 witness: on the formula `[[1]]` with one variable the solver returns
the assignment `[1]`, and the clause `[1]` contains one of its literals. -/
theorem C1_soundness_witness :
    ∃ l ∈ [(1 : Int)], l ∈ [(1 : Int)] :=
  C1_soundness [[1]] 1 [1] (by decide) [1] (by decide)

/-- C2 (code bug): on the empty formula (zero variables) the solver returns
Python `None` (modelled `some none`), reporting UNSAT, although the empty
formula is satisfied by every assignment — the brute-force check disagrees
with the verdict, because `if not solution` conflates the empty success
valuation with failure. -/
theorem C2_verdict_bug :
    dpll [] 0 = some none ∧ ∀ σ : Nat → Bool, satF σ [] = true :=
  ⟨by decide, fun _ => rfl⟩

/-- C3 counterexample: on the formula `[[1,1],[-1,-1]]` with `n_props = 1`
(duplicate literals; `list.remove` erases only one occurrence) the solver
returns `[1, -1]`: both polarities of variable 1 and two entries instead of
exactly one, contradicting the claimed totality of the output. -/
theorem C3_counterexample :
    dpll [[1, 1], [-1, -1]] 1 = some (some [1, -1]) ∧
    (1 : Int) ∈ [(1 : Int), -1] ∧ (-1 : Int) ∈ [(1 : Int), -1] ∧
    [(1 : Int), -1].length ≠ 1 := by decide

/-- C3 (amended): for formulas whose clauses contain no duplicate literals
and whose literals are nonzero with variables in `1..n_props`, a returned
assignment consists of exactly one literal per variable `1..n_props`
(never both `+v` and `-v`), sorted by ascending variable magnitude —
stated as: the variable magnitudes of the result are exactly the list
`1, 2, ..., n_props` in order — and every variable unassigned by the
search receives the positive polarity. -/
theorem C3_totality (f : Formula) (n : Nat) (sol : List Int)
    (hclean : ∀ c ∈ f, c.Nodup)
    (hrange : ∀ c ∈ f, ∀ l ∈ c, l ≠ 0 ∧ l.natAbs ≤ n)
    (h : dpll f n = some (some sol)) :
    sol.map Int.natAbs = List.range' 1 n ∧
    ∀ i : Nat, 1 ≤ i → i ≤ n →
      ∀ s, _dpll f [] = .val s → ((i : Int) ∉ s ∧ -(i : Int) ∉ s) →
        (i : Int) ∈ sol :=
  dpll_total f n sol hclean hrange h

/-- C3 witness: the amended totality theorem applied to `[[1]]`, `n = 1`. -/
theorem C3_totality_witness :
    [(1 : Int)].map Int.natAbs = List.range' 1 1 :=
  (C3_totality [[1]] 1 [1] (by decide) (by decide) (by decide)).1

/-- C4 counterexample: for `F = [[-1,-1]]` and `L = 1`, the code returns
`[[-1]]`: the remaining clause still contains `¬L` (only the first
occurrence is removed), removing `¬L` entirely would leave the clause empty
yet no Conflict is raised, and the all-false assignment satisfies the
result without making `L` true while `F ∧ L` is unsatisfiable — so the
claimed equivalence with `F ∧ L` fails. -/
theorem C4_counterexample :
    _make_literal_true [[-1, -1]] 1 = .ok [[-1]] ∧
    _make_literal_true [[-1, -1]] 1 ≠ .conflict ∧
    ([-1, -1] : Clause).filter (fun m => decide (m ≠ -1)) = [] ∧
    (-1 : Int) ∈ [(-1 : Int)] ∧
    satF (fun _ => false) [[-1]] = true ∧
    litSat (fun _ => false) 1 = false := by decide

/-- C4 (amended): `assign` drops every clause containing `L`, erases the
first occurrence of `¬L` from each remaining clause, and returns Conflict
exactly when some clause not containing `L` becomes empty after erasing one
occurrence of `¬L`; when no Conflict is raised, every total assignment that
makes `L` true satisfies the result iff it satisfies the original formula. -/
theorem C4_assign_semantics (f : Formula) (L : Int) :
    (_make_literal_true f L = .conflict ↔
      ∃ c ∈ f, L ∉ c ∧ -L ∈ c ∧ c.erase (-L) = []) ∧
    ∀ f', _make_literal_true f L = .ok f' →
      f' = (f.filter (fun c => decide (L ∉ c))).map (fun c => c.erase (-L)) ∧
      ∀ σ : Nat → Bool, litSat σ L = true → satF σ f' = satF σ f :=
  ⟨mlt_conflict_iff f L, fun _ h => ⟨mlt_ok_eq h, fun σ hσ => mlt_sat h σ hσ⟩⟩

/-- C4 witness: assigning `1` in `[[1,2],[-1,3]]` yields `[[3]]`, and the
all-true assignment satisfies the result exactly as it satisfies the
original formula. -/
theorem C4_assign_semantics_witness :
    satF (fun _ => true) [[3]] = satF (fun _ => true) [[1, 2], [-1, 3]] :=
  ((C4_assign_semantics [[1, 2], [-1, 3]] 1).2 [[3]] (by decide)).2
    (fun _ => true) (by decide)

/-- C5 (code bug): on the empty formula with `n_props = 0` the solver
returns Python `None` (modelled `some none`) instead of the empty
assignment, because `if not solution` treats the empty valuation as
failure. -/
theorem C5_empty_formula_bug : dpll [] 0 = some none := by decide

/-- C6 (code bug): on the formula `[[]]` the Conflict is never detected —
`ple` and `up` pass the empty clause through unchanged — and the code
reaches `select_next_literal`, which evaluates `clause[0]` on the empty
clause and raises `IndexError` (modelled as a fault, `none`), instead of
returning UNSAT. -/
theorem C6_empty_clause_bug :
    dpll [[]] 0 = none ∧ select_next_literal [[]] = none ∧
    _dpll [[]] [] = .fault := by decide

/-- C7 counterexample: on `[[1],[-1]]`, `up` assigns the unit literal `1`
(recording it in its local valuation) and then hits a Conflict, but
`return -1, []` discards the accumulated assignment: the returned list is
empty, not `[1]` as the claim requires. -/
theorem C7_counterexample :
    up [[1], [-1]] = (.conflict, []) ∧
    getUnitLit [[1], [-1]] = some 1 ∧
    _make_literal_true [[1], [-1]] 1 = .conflict := by decide

/-- C7 (amended): when unit propagation encounters a Conflict it stops
immediately and returns Conflict together with the EMPTY assignment list —
the literals assigned during this propagation are discarded, not
reported. -/
theorem C7_up_conflict_empty (f : Formula) (h : (up f).1 = .conflict) :
    (up f).2 = [] := by
  rw [up] at h ⊢
  rcases hu : upF (occ f + 1) f with _ | r
  · rfl
  · rw [hu] at h
    simp only [Option.getD_some] at h ⊢
    exact upF_conflict_nil hu h

/-- C7 witness: the amended theorem applied to `[[1],[-1]]`. -/
theorem C7_up_conflict_empty_witness : (up [[1], [-1]]).2 = [] :=
  C7_up_conflict_empty [[1], [-1]] (by decide)

/-- C8 (code bug): `make_literals_true` does not short-circuit on Conflict:
assigning `-1` to `[[1]]` yields the Conflict sentinel, and with the
literal `2` still pending the next loop iteration calls
`_make_literal_true(-1, 2)`, which iterates over the integer `-1` and
raises `TypeError` (modelled as the fault `none`) instead of returning
Conflict. -/
theorem C8_assign_many_fault :
    make_literals_true [[1]] [-1, 2] = none ∧
    _make_literal_true [[1]] (-1) = .conflict := by decide

/-- C9 counterexample: on `[[1,-1]]` (one distinct variable) the recursion
reaches depth 2 — the root call plus one recursive call — exceeding the
claimed bound of one level per distinct variable; moreover on
`[[1],[-1,-1,2],[-1,-1,-2]]` the branching step selects literal `-1` whose
variable was already fixed by unit propagation in the same call (the unit
valuation is `[1]`), so a branching step need not fix a new variable. -/
theorem C9_counterexample :
    dpllDepth [[1, -1]] [] = 2 ∧ numVars [[1, -1]] = 1 ∧
    ¬dpllDepth [[1, -1]] [] ≤ numVars [[1, -1]] ∧
    ple [[1], [-1, -1, 2], [-1, -1, -2]] =
      some (.ok [[1], [-1, -1, 2], [-1, -1, -2]], []) ∧
    up [[1], [-1, -1, 2], [-1, -1, -2]] = (.ok [[-1, 2], [-1, -2]], [1]) ∧
    select_next_literal [[-1, 2], [-1, -2]] = some (-1) ∧
    (-1 : Int).natAbs = (1 : Int).natAbs := by decide

/-- C9 (amended): `_dpll` terminates on every finite formula and valuation —
the fuel `occ f + 1` (one more than the number of literal occurrences)
always suffices — and the depth of the recursion tree is bounded by one
plus the number of distinct variables of the formula. -/
theorem C9_termination_depth :
    ∀ (f : Formula) (v : List Int),
      (_dpllF (occ f + 1) f v).isSome ∧ dpllDepth f v ≤ numVars f + 1 :=
  fun f v => ⟨dpllF_isSome (by omega), dpllDepth_le f v⟩

/-- C10: for every input formula containing no empty clause, at every
branching point reached by the search (after `ple` and `up`, formula
neither Conflict nor empty) every clause has length at least 2, and
consequently the branch assignment on the selected literal (either sign)
never returns the Conflict sentinel, so `_dpll` is never invoked with
Conflict as its formula argument. -/
theorem C10_branch_invariant (f g : Formula)
    (hne : ∀ c ∈ f, c ≠ []) (hr : Reaches f g) :
    ∀ g1 g2 pv uv, ple g = some (.ok g1, pv) → up g1 = (.ok g2, uv) →
      g2 ≠ [] →
      (∀ c ∈ g2, 2 ≤ c.length) ∧
      ∀ l, select_next_literal g2 = some l →
        ∀ s, (s = l ∨ s = -l) → _make_literal_true g2 s ≠ .conflict := by
  intro g1 g2 pv uv hple hup hg2
  have hneg : noEmptyClause g := reaches_noEmpty hne hr
  rcases branch_invariant hneg hple hup hg2 with ⟨hlen, hconf⟩
  exact ⟨hlen, fun l _ s _ => hconf s⟩

/-- C10 witness: the branch invariant applied at the root branching point
of `[[1,2],[-1,2],[1,-2]]`, where `ple` and `up` leave the formula
unchanged and the selected literal is `1`. -/
theorem C10_branch_invariant_witness :
    (∀ c ∈ [[(1 : Int), 2], [-1, 2], [1, -2]], 2 ≤ c.length) ∧
    _make_literal_true [[(1 : Int), 2], [-1, 2], [1, -2]] 1 ≠ .conflict := by
  have h := C10_branch_invariant [[(1 : Int), 2], [-1, 2], [1, -2]]
    [[(1 : Int), 2], [-1, 2], [1, -2]] (by decide) (Reaches.refl _)
    [[(1 : Int), 2], [-1, 2], [1, -2]] [[(1 : Int), 2], [-1, 2], [1, -2]]
    [] [] (by decide) (by decide) (by decide)
  exact ⟨h.1, h.2 1 (by decide) 1 (Or.inl rfl)⟩
